import Mathlib

/-!
# Verification of the nagobot agent core

A shallow embedding, in Lean 4, of the parts of the nagobot repository
(Go) that the specification makes quantified claims about:

* the message bus outbound recovery policy (internal/bus);
* the filesystem tools, in particular edit_file and the sandbox path
  resolution (internal/tool/filesystem.go);
* the session manager JSONL persistence (internal/session/manager.go);
* the agent loop: the ReAct iteration bound, mid-turn context
  compression and memory consolidation (internal/agent);
* the cron scheduler: field parsing, next-run search and the job store
  state machine (internal/cron).

Modelling conventions:

* Go strings are byte sequences; they are modelled as `List Char`, one
  `Char` standing for one byte (the repository only manipulates ASCII
  at the positions the claims talk about, where bytes and runes agree).
* External collaborators (the LLM provider, the JSON decoder of the
  standard library, tool side effects) are parameters of the embedded
  functions: the theorems quantify over them, so they hold for every
  behaviour of the collaborator.
* Filesystem effects are made explicit: a function that writes returns
  the new contents, a function that reads takes the contents as an
  argument, and where the order of accesses matters the functions
  return the list of paths they touch.
-/

/-- Go strings, viewed as byte sequences (`Char` standing for a byte). -/
abbrev GoString := List Char

/-- Literal Go strings are written via their Lean counterpart. -/
def gs (s : String) : GoString := s.data

/-- Go `strings.HasPrefix`, on the byte-sequence model. -/
def goHasPre (s pre : GoString) : Bool := pre.isPrefixOf s

/-- ASCII whitespace recognised by `strings.TrimSpace`. -/
def goIsSpace (c : Char) : Bool :=
  c = ' ' ∨ c = '\t' ∨ c = '\n' ∨ c = '\x0b' ∨ c = '\x0c' ∨ c = '\r'

/-- Go `strings.TrimSpace` (restricted to ASCII whitespace). -/
def goTrimSpace (s : GoString) : GoString :=
  (s.dropWhile goIsSpace).reverse.dropWhile goIsSpace |>.reverse

namespace Bus

/-!
## internal/bus: outbound dispatch and recovery (events.go, queue.go)

`OutboundMessage` mirrors the Go struct; `map[string]any` metadata is
modelled as an association list.  A subscribed handler either succeeds
or fails on a message; it is modelled as a function to `Bool`
(`true` = the Go handler returned a nil error).
-/

structure OutboundMessage where
  channel : GoString
  chatID : GoString
  content : GoString
  replyTo : GoString
  media : List GoString
  metadata : List (GoString × GoString)
  deriving Repr, DecidableEq

/-- Strategy 1 of `MessageBus.recoverSend`: the original message with
media attachments stripped (only channel, chat and content are kept). -/
def noMediaMsg (o : OutboundMessage) : OutboundMessage :=
  { channel := o.channel, chatID := o.chatID, content := o.content,
    replyTo := [], media := [], metadata := [] }

/-- Strategy 2 of `MessageBus.recoverSend`: content truncated to its
first 1500 bytes with the truncation marker appended. -/
def truncatedMsg (o : OutboundMessage) : OutboundMessage :=
  { channel := o.channel, chatID := o.chatID,
    content := o.content.take 1500 ++ gs "\n\n[message truncated]",
    replyTo := [], media := [], metadata := [] }

/-- Strategy 3 of `MessageBus.recoverSend`: the fixed apology notice. -/
def apologyMsg (o : OutboundMessage) : OutboundMessage :=
  { channel := o.channel, chatID := o.chatID,
    content := gs "Sorry, I ran into a technical issue and couldn\x27t deliver my response. Please try again.",
    replyTo := [], media := [], metadata := [] }

/-- `MessageBus.recoverSend`, returning the ordered list of delivery
attempts it makes through the failing handler `h`.  Mirrors the Go
control flow: strategy 1 runs only when the original carried media,
strategy 2 only when the content exceeds 1500 bytes, strategy 3 always
(each strategy runs only if every earlier attempt failed). -/
def recoverSend (h : OutboundMessage → Bool) (o : OutboundMessage) :
    List OutboundMessage :=
  if 0 < o.media.length then
    if h (noMediaMsg o) then [noMediaMsg o]
    else if 1500 < o.content.length then
      if h (truncatedMsg o) then [noMediaMsg o, truncatedMsg o]
      else [noMediaMsg o, truncatedMsg o, apologyMsg o]
    else [noMediaMsg o, apologyMsg o]
  else if 1500 < o.content.length then
    if h (truncatedMsg o) then [truncatedMsg o]
    else [truncatedMsg o, apologyMsg o]
  else [apologyMsg o]

/-- One outbound message run through `MessageBus.DispatchOutbound`:
every handler subscribed to the channel is invoked in registration
order, and each failing handler triggers `recoverSend`.  The result is
the full ordered list of sends. -/
def dispatchMsg (handlers : List (OutboundMessage → Bool))
    (o : OutboundMessage) : List OutboundMessage :=
  (handlers.map (fun h => o :: (if h o then [] else recoverSend h o))).flatten

/-- The recovery policy exactly as the specification sentence words it:
strategy 2 (truncation) is retried unconditionally once strategy 1 has
not succeeded, with no guard on the content length.  Stated for
comparison with `recoverSend` above. -/
def recoverSendClaimed (h : OutboundMessage → Bool) (o : OutboundMessage) :
    List OutboundMessage :=
  if 0 < o.media.length then
    if h (noMediaMsg o) then [noMediaMsg o]
    else if h (truncatedMsg o) then [noMediaMsg o, truncatedMsg o]
    else [noMediaMsg o, truncatedMsg o, apologyMsg o]
  else if h (truncatedMsg o) then [truncatedMsg o]
  else [truncatedMsg o, apologyMsg o]

end Bus

namespace Tool

/-!
## internal/tool/filesystem.go

`strings.Contains`, `strings.Count` (non-overlapping occurrences) and
`strings.Replace(s, old, new, 1)` on the byte-sequence model, then the
`EditFileTool.Execute` branch logic and the `resolvePath` sandbox
check.
-/

/-- Go `strings.Contains` (`strings.Index(s, sub) >= 0`). -/
def containsSub : GoString → GoString → Bool
  | _, [] => true
  | [], _ :: _ => false
  | a :: s, b :: t => (b :: t).isPrefixOf (a :: s) || containsSub s (b :: t)

/-- Scanner for `strings.Count`: one byte is consumed per step; after
a match the scan resumes past the matched bytes, tracked by `skip`. -/
def countSubGo : GoString → GoString → Nat → Nat
  | [], _, _ => 0
  | _ :: s, t, skip + 1 => countSubGo s t skip
  | a :: s, t, 0 =>
    if t.isPrefixOf (a :: s) then countSubGo s t (t.length - 1) + 1
    else countSubGo s t 0

/-- Go `strings.Count`: the number of non-overlapping instances of
`t` in `s`; for an empty `t` it is one more than the length. -/
def countSub (s t : GoString) : Nat :=
  match t with
  | [] => s.length + 1
  | _ :: _ => countSubGo s t 0

/-- Go `strings.Replace(s, old, new, 1)`: replace the first
occurrence of `old` (for an empty `old`, insert at the front). -/
def replaceFirst : GoString → GoString → GoString → GoString
  | s, [], new => new ++ s
  | [], _ :: _, _ => []
  | a :: s, b :: t, new =>
    if (b :: t).isPrefixOf (a :: s) then new ++ s.drop t.length
    else a :: replaceFirst s (b :: t) new

/-- One step of lexical path cleaning (Go `path/filepath.Clean`,
slash-separated form): empty and `.` components vanish, `..` pops the
last real component (and vanishes at the root of a rooted path), other
components are pushed.  `stack` holds the output components reversed. -/
def cleanStack (rooted : Bool) : List GoString → List GoString → List GoString
  | stack, [] => stack.reverse
  | stack, c :: rest =>
    if c = [] ∨ c = gs "." then cleanStack rooted stack rest
    else if c = gs ".." then
      match stack with
      | [] =>
        if rooted then cleanStack rooted [] rest
        else cleanStack rooted [gs ".."] rest
      | top :: stk =>
        if top = gs ".." then cleanStack rooted (c :: top :: stk) rest
        else cleanStack rooted stk rest
    else cleanStack rooted (c :: stack) rest

/-- Join path components with `/`. -/
def joinComps (cs : List GoString) : GoString := (cs.intersperse (gs "/")).flatten

/-- Go `filepath.Clean` on slash-separated paths. -/
def goClean (p : GoString) : GoString :=
  if p = [] then gs "." else
  let rooted := goHasPre p (gs "/")
  let cleaned := cleanStack rooted [] (p.splitOn '/')
  if rooted then gs "/" ++ joinComps cleaned
  else if cleaned = [] then gs "." else joinComps cleaned

/-- Go `filepath.Join` of two components: concatenation then `Clean`. -/
def goJoin (a b : GoString) : GoString := goClean (a ++ gs "/" ++ b)

/-- Go `filepath.Abs` relative to the working directory `cwd`: `Clean`
for a rooted path, otherwise `Join` with `cwd`. -/
def goAbs (cwd p : GoString) : GoString :=
  if goHasPre p (gs "/") then goClean p else goJoin cwd p

/-- `resolvePath` (filesystem.go lines 13-30): expand a leading `~/`
against the home directory, make the path absolute, and when a base
directory is configured require `strings.HasPrefix(resolved,
absAllowed)`; `none` models the out-of-sandbox error return. -/
def resolvePath (cwd home path allowedDir : GoString) : Option GoString :=
  let expanded := if goHasPre path (gs "~/") then goJoin home (path.drop 2) else path
  let resolved := goAbs cwd expanded
  if allowedDir ≠ [] then
    let absAllowed := goAbs cwd allowedDir
    if goHasPre resolved absAllowed then some resolved else none
  else some resolved

/-- Semantic containment of a resolved path in a base directory: the
path is the base itself or lies strictly below it. -/
def withinDir (resolved base : GoString) : Bool :=
  resolved == base || goHasPre resolved (base ++ gs "/")

/-- The filesystem paths `ReadFileTool.Execute` touches (`os.Stat`,
`os.ReadFile`): none when path resolution fails, otherwise exactly the
resolved path.  The same shape holds for write_file, edit_file and
list_dir, which all resolve first and return the error on failure. -/
def readFileAccesses (cwd home path allowedDir : GoString) : List GoString :=
  match resolvePath cwd home path allowedDir with
  | none => []
  | some r => [r]

/-- The fixed `edit_file` failure message for an absent `old_text`. -/
def notFoundMsg : GoString :=
  gs "Error: old_text not found in file. Make sure it matches exactly."

/-- The `edit_file` disambiguation warning for an ambiguous `old_text`. -/
def warnMsg (count : Nat) : GoString :=
  gs "Warning: old_text appears " ++ (toString count).data ++
    gs " times. Please provide more context to make it unique."

/-- The `edit_file` success message. -/
def editedMsg (path : GoString) : GoString := gs "Successfully edited " ++ path

/-- Outcome of `EditFileTool.Execute`: the tool message, the file
contents afterwards, and whether a write was performed. -/
structure EditResult where
  message : GoString
  newContent : GoString
  wrote : Bool
  deriving Repr, DecidableEq

/-- `EditFileTool.Execute` after the path has resolved and the file has
been read as `content` (lines 174-187 of filesystem.go): refuse when
`old_text` is absent, refuse with a warning when it occurs more than
once, otherwise replace its first occurrence and write the file. -/
def editFileContent (path content oldText newText : GoString) : EditResult :=
  if ¬ containsSub content oldText then
    { message := notFoundMsg, newContent := content, wrote := false }
  else if 1 < countSub content oldText then
    { message := warnMsg (countSub content oldText),
      newContent := content, wrote := false }
  else
    { message := editedMsg path,
      newContent := replaceFirst content oldText newText, wrote := true }

end Tool

namespace Session

/-!
## internal/session/manager.go

A `Message` is persisted as one JSON object per line, after a metadata
line.  The JSONL file is modelled at line granularity: Go
`json.Marshal`/`json.Unmarshal` of the flat `Message` struct is
lossless on its three string fields, and the RFC3339 timestamps of the
metadata line carry whole seconds only (the layout
`2006-01-02T15:04:05Z07:00` has no fractional-second digits), so the
metadata is modelled by the integer second values that the formatted
strings determine.
-/

structure SMessage where
  role : GoString
  content : GoString
  timestamp : GoString
  deriving Repr, DecidableEq

/-- Go `time.Time`, reduced to the wall clock: seconds since the Unix
epoch plus a sub-second nanosecond part. -/
structure GoTime where
  sec : Int
  nsec : Nat
  deriving Repr, DecidableEq

/-- The second value of the zero `time.Time` (January 1 of year 1),
the one instant on which `IsZero` holds. -/
def goZeroTimeSec : Int := -62135596800

structure Sess where
  key : GoString
  messages : List SMessage
  createdAt : GoTime
  updatedAt : GoTime
  deriving Repr, DecidableEq

/-- One line of a session `.jsonl` file. -/
inductive SessionLine where
  | meta (createdAtSec updatedAtSec : Int)
  | msg (m : SMessage)
  deriving Repr, DecidableEq

/-- `Manager.Save`: the metadata line (timestamps formatted with
RFC3339, hence truncated to whole seconds) followed by one line per
message. -/
def saveLines (s : Sess) : List SessionLine :=
  .meta s.createdAt.sec s.updatedAt.sec :: s.messages.map .msg

/-- The line scan of `Manager.load`: metadata lines (re)set the
creation time, message lines accumulate in order. -/
def loadScan : List SessionLine → Option Int → List SMessage →
    Option Int × List SMessage
  | [], c, acc => (c, acc.reverse)
  | .meta cs _ :: rest, _, acc => loadScan rest (some cs) acc
  | .msg m :: rest, c, acc => loadScan rest c (m :: acc)

/-- `Manager.load`: rebuild the session from the file lines; a missing
or zero created-at falls back to the current time, and `UpdatedAt` is
always the current time. -/
def loadLines (key : GoString) (lines : List SessionLine) (now : GoTime) :
    Sess :=
  match loadScan lines none [] with
  | (c, msgs) =>
    { key := key, messages := msgs,
      createdAt :=
        match c with
        | some s => if s = goZeroTimeSec then now else ⟨s, 0⟩
        | none => now,
      updatedAt := now }

/-- The characters `safeFilename` rewrites to underscores. -/
def badChars : GoString := gs "<>:\"/\\|?*"

/-- `safeFilename`: successive `strings.ReplaceAll` of each unsafe
character by an underscore, then `strings.TrimSpace`. -/
def safeFilename (name : GoString) : GoString :=
  goTrimSpace (badChars.foldl
    (fun acc c => acc.map (fun x => if x = c then '_' else x)) name)

/-- `Manager.sessionPath`: replace `:` by `_` in the key, sanitise,
append `.jsonl`, join onto the sessions directory. -/
def sessionPath (dir key : GoString) : GoString :=
  Tool.goJoin dir
    (safeFilename (key.map (fun c => if c = ':' then '_' else c)) ++ gs ".jsonl")

/-- The sessions directory viewed as a map from file path to file
lines; `Manager.Save` truncates and rewrites the file at the
session key's path (`os.Create`). -/
def saveToDisk (dir : GoString) (disk : GoString → Option (List SessionLine))
    (s : Sess) : GoString → Option (List SessionLine) :=
  fun p => if p = sessionPath dir s.key then some (saveLines s) else disk p

end Session

namespace Agent

/-!
## internal/agent: the ReAct loop, compression and consolidation

The `map[string]any` chat messages are modelled as a record with
zero values for absent keys, matching the Go type assertions
(`m["role"].(string)` yields `""` on a missing key).  The LLM provider
is an oracle indexed by the number of `Chat` calls made so far:
`none` models a transport error, `some r` the parsed response.  The
theorems quantify over the oracle, so they cover every provider
behaviour; the request payload (prompt construction) does not
influence the oracle and is not reproduced.
-/

/-- A tool call as requested by the model (`llm.ToolCallRequest`);
`argsJSON` is the `json.Marshal` rendering of its argument object. -/
structure ToolCallReq where
  id : GoString
  name : GoString
  argsJSON : GoString
  deriving Repr, DecidableEq, Inhabited

/-- The OpenAI-shape `tool_calls` entry built by `processMessage`. -/
structure ToolCallDict where
  id : GoString
  name : GoString
  arguments : GoString
  deriving Repr, DecidableEq, Inhabited

/-- `llm.ChatResponse`, reduced to the fields the loop reads. -/
structure ChatResponse where
  content : GoString
  toolCalls : List ToolCallReq
  finishReason : GoString
  reasoningContent : GoString
  deriving Repr, DecidableEq, Inhabited

/-- The provider oracle: the outcome of the n-th `provider.Chat` call
of a turn (`none` = transport error, i.e. a non-nil Go error). -/
def Provider := Nat → Option ChatResponse

/-- One `map[string]any` message of the working list; absent keys are
zero values. -/
structure ChatMsg where
  role : GoString
  content : GoString
  toolCalls : List ToolCallDict
  reasoningContent : GoString
  toolCallID : GoString
  name : GoString
  deriving Repr, DecidableEq, Inhabited

/-- `ContextBuilder.AddAssistantMessage`: append an assistant message,
with `tool_calls` and `reasoning_content` present exactly when
non-empty (absent keys being zero values, the record is the same). -/
def addAssistantMessage (msgs : List ChatMsg) (content : GoString)
    (toolCalls : List ToolCallDict) (reasoning : GoString) : List ChatMsg :=
  msgs ++ [{ role := gs "assistant", content := content,
             toolCalls := toolCalls, reasoningContent := reasoning,
             toolCallID := [], name := [] }]

/-- `ContextBuilder.AddToolResult`: append a tool-result message. -/
def addToolResult (msgs : List ChatMsg) (id name result : GoString) :
    List ChatMsg :=
  msgs ++ [{ role := gs "tool", content := result, toolCalls := [],
             reasoningContent := [], toolCallID := id, name := name }]

/-- `chatWithRetry` (part_007 lines 268-290) under a non-cancelled
context: up to two retries after the first attempt, giving up with the
last error.  Returns the new call index and the outcome. -/
def chatWithRetry (p : Provider) (k : Nat) : Nat × Option ChatResponse :=
  match p k with
  | some r => (k + 1, some r)
  | none =>
    match p (k + 1) with
    | some r => (k + 2, some r)
    | none =>
      match p (k + 2) with
      | some r => (k + 3, some r)
      | none => (k + 3, none)

/-- The split-point search of `compressMessages`: walk `i` down to
index 2 and pick the first index whose role is `user` (the Go loop
`for i := len(messages) - 4; i > 1; i--`). -/
def findSplitIdx (msgs : List ChatMsg) : Nat → Option Nat
  | 0 => none
  | 1 => none
  | i + 2 =>
    if (msgs.getD (i + 2) default).role = gs "user" then some (i + 2)
    else findSplitIdx msgs (i + 1)

/-- The synthetic user message holding the compression summary. -/
def userSummaryMsg (summary : GoString) : ChatMsg :=
  { role := gs "user",
    content := gs "[Earlier conversation summary]\n" ++ summary,
    toolCalls := [], reasoningContent := [], toolCallID := [], name := [] }

/-- The synthetic assistant acknowledgement spliced after the summary. -/
def compressAckMsg : ChatMsg :=
  { role := gs "assistant",
    content := gs "Understood. I have the context from the earlier conversation and will continue from here.",
    toolCalls := [], reasoningContent := [], toolCallID := [], name := [] }

/-- `Loop.compressMessages` (part_007 lines 463-537): require at least
6 messages and a user-role split point leaving a 4-message tail, call
the summariser once (one provider call, no retry), and splice
`[system, summary, acknowledgement] ++ tail`; every failure path
returns the input unchanged.  Returns the new call index with the
resulting list. -/
def compressMessages (p : Provider) (k : Nat) (msgs : List ChatMsg) :
    Nat × List ChatMsg :=
  if msgs.length < 6 then (k, msgs)
  else
    match findSplitIdx msgs (msgs.length - 4) with
    | none => (k, msgs)
    | some si =>
      match p k with
      | none => (k + 1, msgs)
      | some resp =>
        (k + 1, msgs.getD 0 default :: userSummaryMsg resp.content ::
          compressAckMsg :: msgs.drop si)

/-- A tool execution result (`tool.ToolResult`); the registry turns
tool errors into result text, so no failure case is needed. -/
structure ToolResult where
  content : GoString
  media : List GoString
  deriving Repr, DecidableEq, Inhabited

/-- The `tool_calls` dict built for the assistant message. -/
def toolCallDictOf (tc : ToolCallReq) : ToolCallDict :=
  { id := tc.id, name := tc.name, arguments := tc.argsJSON }

/-- The sequential tool-execution loop of one ReAct iteration: record
the tool name, execute, collect media when present, and append the
tool-result message. -/
def runToolCalls (execTool : ToolCallReq → ToolResult) :
    List ToolCallReq → List ChatMsg → List GoString → List GoString →
    List ChatMsg × List GoString × List GoString
  | [], msgs, used, media => (msgs, used, media)
  | tc :: rest, msgs, used, media =>
    runToolCalls execTool rest
      (addToolResult msgs tc.id tc.name (execTool tc).content)
      (used ++ [tc.name])
      (if 0 < (execTool tc).media.length then media ++ (execTool tc).media
       else media)

/-- The reflection nudge appended after tool results from iteration 2
on. -/
def nudgeMsg : ChatMsg :=
  { role := gs "user",
    content := gs "[SYSTEM] Review the tool results above. If you have enough information, respond directly to the user\x27s original request. If not, make additional tool calls. Do NOT output any reflection or meta-commentary — just answer the user or call tools.",
    toolCalls := [], reasoningContent := [], toolCallID := [], name := [] }

/-- Accumulated turn state of the ReAct loop: provider calls made,
`chatWithRetry` rounds made, working messages, tool audit, media. -/
structure TurnAcc where
  calls : Nat
  rounds : Nat
  msgs : List ChatMsg
  toolsUsed : List GoString
  media : List GoString
  deriving Repr, DecidableEq, Inhabited

/-- How the ReAct loop ended. -/
inductive TurnExit where
  | answered (text : GoString)
  | capReached
  | failed
  deriving Repr, DecidableEq, Inhabited

/-- The pre-call compression guard (`estimateTokens(messages) >
contextLimit`); the token estimator is a parameter, so the theorems
hold for the byte-length heuristic of the code and any other. -/
def compressIfNeeded (est : List ChatMsg → Nat) (ctxLimit : Nat)
    (p : Provider) (k : Nat) (msgs : List ChatMsg) : Nat × List ChatMsg :=
  if ctxLimit < est msgs then compressMessages p k msgs else (k, msgs)

/-- The ReAct loop of `Loop.processMessage` (part_007 lines 347-426):
`i` is the Go loop counter, `fuel` the remaining iterations
(`maxIterations - i`).  Each iteration compresses if over the limit,
calls the provider with retries, on a provider `error` finish
compresses and retries the iteration only when that reduced the
estimate, executes any tool calls (appending the nudge from iteration
2 on), and otherwise records the final answer. -/
def reactLoop (est : List ChatMsg → Nat) (ctxLimit : Nat) (p : Provider)
    (execTool : ToolCallReq → ToolResult) :
    Nat → Nat → TurnAcc → TurnAcc × TurnExit
  | _, 0, acc => (acc, .capReached)
  | i, fuel + 1, acc =>
    match compressIfNeeded est ctxLimit p acc.calls acc.msgs with
    | (k1, msgs1) =>
      match chatWithRetry p k1 with
      | (k2, none) =>
        ({ acc with calls := k2, rounds := acc.rounds + 1, msgs := msgs1 },
          .failed)
      | (k2, some resp) =>
        if resp.finishReason = gs "error" then
          match compressMessages p k2 msgs1 with
          | (k3, compressed) =>
            if est compressed < est msgs1 then
              reactLoop est ctxLimit p execTool (i + 1) fuel
                { acc with
                  calls := k3, rounds := acc.rounds + 1, msgs := compressed }
            else
              ({ acc with
                 calls := k3, rounds := acc.rounds + 1, msgs := msgs1 },
                .failed)
        else if resp.toolCalls.length ≠ 0 then
          match runToolCalls execTool resp.toolCalls
              (addAssistantMessage msgs1 resp.content
                (resp.toolCalls.map toolCallDictOf) resp.reasoningContent)
              acc.toolsUsed acc.media with
          | (msgs2, used2, media2) =>
            reactLoop est ctxLimit p execTool (i + 1) fuel
              { calls := k2, rounds := acc.rounds + 1,
                msgs := if 0 < i then msgs2 ++ [nudgeMsg] else msgs2,
                toolsUsed := used2, media := media2 }
        else
          ({ acc with calls := k2, rounds := acc.rounds + 1, msgs := msgs1 },
            .answered resp.content)

/-- A whole ReAct phase of a turn, from the initial message list. -/
def runReact (est : List ChatMsg → Nat) (ctxLimit : Nat) (p : Provider)
    (execTool : ToolCallReq → ToolResult) (maxIter : Nat)
    (initMsgs : List ChatMsg) : TurnAcc × TurnExit :=
  reactLoop est ctxLimit p execTool 0 maxIter
    { calls := 0, rounds := 0, msgs := initMsgs, toolsUsed := [], media := [] }

/-- The fixed fallback reply substituted for an empty result. -/
def fallbackContent : GoString :=
  gs "I\x27ve completed processing but have no response to give."

/-- `finalContent` after the loop (part_007 lines 428-430): the
fallback replaces an empty answer; a failed turn returns an error
before reaching the fallback. -/
def finalContentOf : TurnExit → Option GoString
  | .answered c => some (if c = [] then fallbackContent else c)
  | .capReached => some fallbackContent
  | .failed => none

/-!
### Memory consolidation (part_007 lines 542-658)
-/

/-- A session message as the agent loop uses it, carrying the tool
audit list. -/
structure AMessage where
  role : GoString
  content : GoString
  timestamp : GoString
  toolsUsed : List GoString
  deriving Repr, DecidableEq, Inhabited

/-- The state consolidation touches: the session transcript and the
two memory files. -/
structure ConsState where
  messages : List AMessage
  memoryMd : GoString
  historyMd : GoString
  deriving Repr, DecidableEq, Inhabited

/-- `keepTail`: `memoryWindow/2` clamped to `[2, 10]`. -/
def clampKeep (w : Nat) : Nat :=
  if w / 2 < 2 then 2 else if 10 < w / 2 then 10 else w / 2

/-- Drop everything up to and including the first newline, when one is
present (`strings.Index(text, "\n")` then reslice). -/
def afterFirstNL (s : GoString) : GoString :=
  if '\n' ∈ s then (s.dropWhile (· ≠ '\n')).drop 1 else s

/-- Go `strings.LastIndex`: the greatest index at which `sub` starts
in `s`, if any. -/
def lastIndexSub (s sub : GoString) : Option Nat :=
  ((List.range (s.length + 1)).filter (fun i => sub.isPrefixOf (s.drop i))).getLast?

/-- Truncate at the last triple-backtick fence, when one is present. -/
def beforeLastFence (s : GoString) : GoString :=
  match lastIndexSub s (gs "```") with
  | some i => s.take i
  | none => s

/-- The fence stripping of `consolidateMemory` (lines 622-632): trim,
and when the text starts with a fence drop its first line, cut at the
last fence and trim again. -/
def stripFences (c : GoString) : GoString :=
  let text := goTrimSpace c
  if goHasPre text (gs "```") then
    goTrimSpace (beforeLastFence (afterFirstNL text))
  else text

/-- Modelled from the spec: `MemoryStore.AppendHistory` is not among
the provided sources; per the specification the history entry is
appended to `memory/HISTORY.md`. -/
def appendHistory (historyMd entry : GoString) : GoString :=
  historyMd ++ entry ++ gs "\n"

/-- `Loop.consolidateMemory`: `llm` is the single summarisation call
(`none` = transport error) and `jparse` the `json.Unmarshal` oracle,
returning the lookups of `history_entry` and `memory_update` when the
text parses as a string map.  Every failure path leaves the state
untouched; on success the transcript is trimmed to `clampKeep w`
messages, or emptied when archiving all. -/
def consolidateMemory (w : Nat) (llm : Option GoString)
    (jparse : GoString → Option (Option GoString × Option GoString))
    (archiveAll : Bool) (st : ConsState) : ConsState :=
  if st.messages.length = 0 then st
  else if ¬archiveAll ∧ st.messages.length ≤ clampKeep w then st
  else
    let old := if archiveAll then st.messages
               else st.messages.take (st.messages.length - clampKeep w)
    if old.length = 0 then st
    else
      match llm with
      | none => st
      | some content =>
        match jparse (stripFences content) with
        | none => st
        | some (he, mu) =>
          { messages :=
              if archiveAll then []
              else st.messages.drop (st.messages.length - clampKeep w),
            memoryMd :=
              match mu with
              | some u => if u ≠ [] ∧ u ≠ st.memoryMd then u else st.memoryMd
              | none => st.memoryMd,
            historyMd :=
              match he with
              | some e => if e ≠ [] then appendHistory st.historyMd e
                          else st.historyMd
              | none => st.historyMd }

end Agent

namespace Cron

/-!
## internal/cron: scheduler (part_010 types, part_011 service)

`nextCronRun` matches on the wall clock of the configured location
(`Minute`, `Hour`, `Day`, `Month`, `Weekday` read civil time) and the
`time.Date` jumps build civil time.  The model therefore works on
civil time (proleptic Gregorian calendar, as in the Go time package,
restricted to years >= 0), at the minute granularity at which the
search moves: the search start stands for `truncate(now, minute) + 1
minute` in the wall clock of the location.  The time-zone database
(`time.LoadLocation`) is outside the repository; locations are
modelled as fixed UTC offsets (whole minutes, as every real offset
is) and daylight-saving transitions are not modelled.  At a fixed
offset, `Add` of a duration and the `time.Date` constructions are
wall-clock operations — but `time.Time.Truncate` is not: it rounds
the ABSOLUTE time (the duration since the zero instant) down to a
multiple of the given duration, so the hour jump
`t.Truncate(time.Hour).Add(time.Hour)` of the search depends on the
offset.  `nextHourStart` below renders that jump at a whole-hour
offset, where it is the wall-clock next hour start; `nextHourAbs`
renders it at an arbitrary fixed offset `off`, where it lands on wall
minute `off mod 60` — the divergence behind the missed-match bug the
code-bug theorem for the next-run claim exhibits.
-/

/-- Leap years of the proleptic Gregorian calendar. -/
def isLeap (y : Nat) : Bool := y % 4 = 0 && (y % 100 != 0 || y % 400 = 0)

/-- Days in a month (months numbered 1-12 as in Go `time.Month`). -/
def daysInMonth (y : Nat) : Nat → Nat
  | 1 => 31
  | 2 => if isLeap y then 29 else 28
  | 3 => 31
  | 4 => 30
  | 5 => 31
  | 6 => 30
  | 7 => 31
  | 8 => 31
  | 9 => 30
  | 10 => 31
  | 11 => 30
  | 12 => 31
  | _ => 0

def daysInYear (y : Nat) : Nat := if isLeap y then 366 else 365

/-- Days from the calendar origin (year 0, January 1) to January 1 of
year `y`. -/
def daysBeforeYear : Nat → Nat
  | 0 => 0
  | y + 1 => daysBeforeYear y + daysInYear y

/-- Days from January 1 to the first day of month `m` of year `y`
(so `daysBeforeMonth y 13` is the length of the year). -/
def daysBeforeMonth (y : Nat) : Nat → Nat
  | 0 => 0
  | 1 => 0
  | m + 2 => daysBeforeMonth y (m + 1) + daysInMonth y (m + 1)

/-- A wall-clock reading at minute granularity. -/
structure Civil where
  y : Nat
  m : Nat
  d : Nat
  hh : Nat
  mi : Nat
  deriving Repr, DecidableEq, Inhabited

/-- A well-formed calendar reading. -/
def Civil.Valid (t : Civil) : Prop :=
  1 ≤ t.m ∧ t.m ≤ 12 ∧ 1 ≤ t.d ∧ t.d ≤ daysInMonth t.y t.m ∧
    t.hh < 24 ∧ t.mi < 60

instance (t : Civil) : Decidable t.Valid := by
  unfold Civil.Valid
  infer_instance

/-- Days from the calendar origin to the date of `t`. -/
def absDays (t : Civil) : Nat :=
  daysBeforeYear t.y + daysBeforeMonth t.y t.m + (t.d - 1)

/-- Minutes from the calendar origin to `t`: the linear timeline the
search moves on. -/
def toMin (t : Civil) : Nat := (absDays t * 24 + t.hh) * 60 + t.mi

/-- Go `time.Weekday` (Sunday = 0): day 0 of the calendar origin is a
Saturday. -/
def weekday (t : Civil) : Nat := (absDays t + 6) % 7

/-- `time.Date(y, m+1, 1, 0, 0, 0, 0, loc)` with Go's normalisation of
month 13 into January of the next year. -/
def nextMonthStart (t : Civil) : Civil :=
  if t.m = 12 then ⟨t.y + 1, 1, 1, 0, 0⟩ else ⟨t.y, t.m + 1, 1, 0, 0⟩

/-- `time.Date(y, m, d+1, 0, 0, 0, 0, loc)` with Go's normalisation of
a day past the end of the month into the next month. -/
def nextDayStart (t : Civil) : Civil :=
  if t.d < daysInMonth t.y t.m then ⟨t.y, t.m, t.d + 1, 0, 0⟩
  else nextMonthStart t

/-- `t.Truncate(time.Hour).Add(time.Hour)` at a whole-hour UTC
offset: the wall-clock next hour start.  `nextHourAbs` below is the
general fixed-offset rendering; `nextHourAbs_whole` identifies the
two at offsets `60 * k`. -/
def nextHourStart (t : Civil) : Civil :=
  if t.hh + 1 < 24 then ⟨t.y, t.m, t.d, t.hh + 1, 0⟩ else nextDayStart t

/-- `t.Add(time.Minute)` on a whole-minute reading. -/
def addMinute (t : Civil) : Civil :=
  if t.mi + 1 < 60 then ⟨t.y, t.m, t.d, t.hh, t.mi + 1⟩ else nextHourStart t

/-- The five parsed field sets of a cron expression (Go builds
`map[int]bool`; the model keeps the inserted values as a list and uses
membership). -/
structure CronSets where
  minutes : List Nat
  hours : List Nat
  doms : List Nat
  months : List Nat
  dows : List Nat
  deriving Repr, DecidableEq, Inhabited

/-- The five-field test of `nextCronRun` (months, day of month, day of
week, hours, minutes — in the order the code checks them). -/
def cronMatches (cs : CronSets) (t : Civil) : Bool :=
  cs.months.contains t.m && cs.doms.contains t.d &&
    cs.dows.contains (weekday t) && cs.hours.contains t.hh &&
    cs.minutes.contains t.mi

/-- One advance of the `nextCronRun` search loop: jump to the next
month when the month set misses, to the next day when the day-of-month
or day-of-week set misses, to the next hour when the hour set misses,
else one minute. -/
def cronStep (cs : CronSets) (t : Civil) : Civil :=
  if !cs.months.contains t.m then nextMonthStart t
  else if !cs.doms.contains t.d || !cs.dows.contains (weekday t) then
    nextDayStart t
  else if !cs.hours.contains t.hh then nextHourStart t
  else addMinute t

/-- The search loop (`for t.Before(end)`); `fuel` bounds the number of
iterations and is chosen larger than the number of minutes in the
window, which the step lemmas show is enough. -/
def cronSearch (cs : CronSets) (endMin : Nat) : Nat → Civil → Option Civil
  | 0, _ => none
  | fuel + 1, t =>
    if toMin t < endMin then
      if cronMatches cs t then some t
      else cronSearch cs endMin fuel (cronStep cs t)
    else none

/-- The 366-day search horizon, in minutes. -/
def searchWindowMin : Nat := 366 * 24 * 60

/-- The whole search from a start reading (which stands for
`truncate(now, minute) + 1 minute`); `none` models the `0` return. -/
def nextCronCivil (cs : CronSets) (start : Civil) : Option Civil :=
  cronSearch cs (toMin start + searchWindowMin) (searchWindowMin + 1) start

/-- The value of a run of decimal digits, `none` when empty or not all
digits. -/
def digitsVal (s : GoString) : Option Nat :=
  if s = [] then none
  else if s.all (fun c => c.isDigit) then
    some (s.foldl (fun acc c => acc * 10 + (c.toNat - 48)) 0)
  else none

/-- Go `strconv.Atoi` (sign handling; overflow is immaterial here). -/
def goAtoi : GoString → Option Int
  | '+' :: rest => (digitsVal rest).map (fun n => (n : Int))
  | '-' :: rest => (digitsVal rest).map (fun n => -(n : Int))
  | s => (digitsVal s).map (fun n => (n : Int))

/-- Go `strings.SplitN(s, sep, 2)` for a one-byte separator. -/
def splitN2 (sep : Char) (s : GoString) : List GoString :=
  if sep ∈ s then [s.takeWhile (· ≠ sep), (s.dropWhile (· ≠ sep)).drop 1]
  else [s]

/-- Go `strings.Fields`: split on runs of whitespace. -/
def goFieldsGo : GoString → GoString → List GoString
  | [], cur => if cur = [] then [] else [cur.reverse]
  | c :: rest, cur =>
    if goIsSpace c then
      if cur = [] then goFieldsGo rest []
      else cur.reverse :: goFieldsGo rest []
    else goFieldsGo rest (c :: cur)

def goFields (s : GoString) : List GoString := goFieldsGo s []

/-- The values of the Go loop `for i := lo; i <= hi; i += step`. -/
def rangeStep (lo hi step : Nat) : List Nat :=
  if lo ≤ hi then
    (List.range ((hi - lo) / step + 1)).map (fun k => lo + k * step)
  else []

/-- One comma-separated part of a cron field (`parseCronField` body,
after `strings.TrimSpace`): `*/N`, `*`, `a-b` or `a-b/N`, or a single
value; `none` models the `nil` rejection.  Go checks the bare bounds
(`lo < min`, `hi > max`) but not `lo <= hi`, so an inverted range
yields an empty set. -/
def parseCronPartGo (lo hi : Nat) (part : GoString) : Option (List Nat) :=
  if goHasPre part (gs "*/") then
    match goAtoi (part.drop 2) with
    | none => none
    | some st => if st ≤ 0 then none else some (rangeStep lo hi st.toNat)
  else if part = gs "*" then some (rangeStep lo hi 1)
  else if part.contains '-' then
    match splitN2 '-' ((splitN2 '/' part).headI) with
    | [b0, b1] =>
      match goAtoi b0, goAtoi b1 with
      | some l, some h =>
        if l < (lo : Int) ∨ (hi : Int) < h then none
        else
          match splitN2 '/' part with
          | [_, stepStr] =>
            match goAtoi stepStr with
            | none => none
            | some st =>
              if st ≤ 0 then none
              else some (if h < l then []
                         else rangeStep l.toNat h.toNat st.toNat)
          | _ => some (if h < l then [] else rangeStep l.toNat h.toNat 1)
      | _, _ => none
    | _ => none
  else
    match goAtoi part with
    | none => none
    | some v =>
      if v < (lo : Int) ∨ (hi : Int) < v then none else some [v.toNat]

/-- One comma-separated part, after Go trims surrounding space. -/
def parseCronPart (lo hi : Nat) (part0 : GoString) : Option (List Nat) :=
  parseCronPartGo lo hi (goTrimSpace part0)

/-- One fold step of `parseCronField`: a failed part poisons the
accumulated set. -/
def parseFieldAcc (lo hi : Nat) (acc : Option (List Nat)) (part : GoString) :
    Option (List Nat) :=
  match acc, parseCronPart lo hi part with
  | some s, some vs => some (s ++ vs)
  | _, _ => none

/-- `parseCronField`: every comma-separated part must parse; the
resulting sets are unioned (list concatenation under membership). -/
def parseCronField (field : GoString) (lo hi : Nat) : Option (List Nat) :=
  (field.splitOn ',').foldl (parseFieldAcc lo hi) (some [])

/-- `nextCronRun` at the civil level: empty or non-five-field
expressions and field parse failures give `none` (the `0` return);
otherwise the search runs from the start reading. -/
def nextCronFrom (expr : GoString) (start : Civil) : Option Civil :=
  if expr = [] then none
  else
    let fields := goFields expr
    if fields.length = 5 then
      match parseCronField (fields.getD 0 []) 0 59,
            parseCronField (fields.getD 1 []) 0 23,
            parseCronField (fields.getD 2 []) 1 31,
            parseCronField (fields.getD 3 []) 1 12,
            parseCronField (fields.getD 4 []) 0 6 with
      | some mins, some hrs, some ds, some mos, some dws =>
        nextCronCivil ⟨mins, hrs, ds, mos, dws⟩ start
      | _, _, _, _, _ => none
    else none

/-- `k` successive applications of `t.Add(time.Minute)`. -/
def addMinutes (t : Civil) : Nat → Civil
  | 0 => t
  | k + 1 => addMinute (addMinutes t k)

/-- `t.Truncate(time.Hour).Add(time.Hour)` at a location of fixed UTC
offset `off` minutes, as `time.Time.Truncate` computes it: the
truncation rounds the ABSOLUTE time — the duration since the zero
instant, January 1 of year 1 at 00:00 UTC — down to a whole hour (the
Go documentation warns that the operation is on the absolute time and
that `Truncate(Hour)` may return a time with a non-zero minute,
depending on the Location).  On the wall-clock minute line the
absolute minute of `t` is `toMin t - off - Z` where `Z`, the `toMin`
of the zero instant, is a multiple of 60; the jump therefore adds
`60 - ((toMin t - off) mod 60)` wall minutes and lands on wall minute
`off mod 60`. -/
def nextHourAbs (off : Int) (t : Civil) : Civil :=
  addMinutes t (60 - ((toMin t : Int) - off) % 60).toNat

/-- The advance of the `nextCronRun` loop at fixed UTC offset `off`:
as `cronStep`, except that the hour jump is performed on absolute
time.  The month and day jumps are `time.Date` constructions and the
minute step is `Add(time.Minute)`, wall-clock at any fixed offset. -/
def cronStepAbs (off : Int) (cs : CronSets) (t : Civil) : Civil :=
  if !cs.months.contains t.m then nextMonthStart t
  else if !cs.doms.contains t.d || !cs.dows.contains (weekday t) then
    nextDayStart t
  else if !cs.hours.contains t.hh then nextHourAbs off t
  else addMinute t

/-- The search loop (`for t.Before(end)`) over `cronStepAbs`. -/
def cronSearchAbs (off : Int) (cs : CronSets) (endMin : Nat) :
    Nat → Civil → Option Civil
  | 0, _ => none
  | fuel + 1, t =>
    if toMin t < endMin then
      if cronMatches cs t then some t
      else cronSearchAbs off cs endMin fuel (cronStepAbs off cs t)
    else none

/-- The whole search at fixed UTC offset `off` (`nextCronCivil` is
its whole-hour-offset instance, see `nextCronCivilAbs_whole`). -/
def nextCronCivilAbs (off : Int) (cs : CronSets) (start : Civil) :
    Option Civil :=
  cronSearchAbs off cs (toMin start + searchWindowMin)
    (searchWindowMin + 1) start

/-- `nextCronRun` at a location of fixed UTC offset `off` minutes:
parsing exactly as in `nextCronFrom`, search with the absolute-time
hour jump. -/
def nextCronFromAbs (off : Int) (expr : GoString) (start : Civil) :
    Option Civil :=
  if expr = [] then none
  else
    let fields := goFields expr
    if fields.length = 5 then
      match parseCronField (fields.getD 0 []) 0 59,
            parseCronField (fields.getD 1 []) 0 23,
            parseCronField (fields.getD 2 []) 1 31,
            parseCronField (fields.getD 3 []) 1 12,
            parseCronField (fields.getD 4 []) 0 6 with
      | some mins, some hrs, some ds, some mos, some dws =>
        nextCronCivilAbs off ⟨mins, hrs, ds, mos, dws⟩ start
      | _, _, _, _, _ => none
    else none

/-!
### The service store state machine (part_011 lines 91-236)

`computeNextRun` dispatches on the schedule kind; for `cron` kind it
calls the millisecond-level `nextCronRun`, whose location handling is
outside the model, so the state machine is parameterised by that
function — the store invariant does not depend on its values.
-/

structure Schedule where
  kind : GoString
  atMs : Int
  everyMs : Int
  expr : GoString
  tz : GoString
  deriving Repr, DecidableEq, Inhabited

structure Payload where
  kind : GoString
  message : GoString
  deliver : Bool
  channel : GoString
  toDest : GoString
  deriving Repr, DecidableEq, Inhabited

structure Job where
  id : GoString
  name : GoString
  enabled : Bool
  schedule : Schedule
  payload : Payload
  nextRunAtMs : Int
  lastRunAtMs : Int
  lastStatus : GoString
  lastError : GoString
  createdAtMs : Int
  updatedAtMs : Int
  deleteAfterRun : Bool
  deriving Repr, DecidableEq, Inhabited

/-- The millisecond-level cron computation, abstracted (see above). -/
def CronNextFn := GoString → GoString → Int → Int

/-- `computeNextRun`. -/
def computeNextRun (cronNext : CronNextFn) (sched : Schedule) (now : Int) :
    Int :=
  if sched.kind = gs "at" then (if now < sched.atMs then sched.atMs else 0)
  else if sched.kind = gs "every" then
    (if sched.everyMs ≤ 0 then 0 else now + sched.everyMs)
  else if sched.kind = gs "cron" then cronNext sched.expr sched.tz now
  else 0

/-- `Service.AddJob`: a new enabled job with its first `nextRunAtMs`. -/
def addJob (cronNext : CronNextFn) (id name : GoString) (sched : Schedule)
    (pl : Payload) (deleteAfterRun : Bool) (now : Int) (jobs : List Job) :
    List Job :=
  jobs ++ [{ id := id, name := name, enabled := true, schedule := sched,
             payload := pl,
             nextRunAtMs := computeNextRun cronNext sched now,
             lastRunAtMs := 0, lastStatus := [], lastError := [],
             createdAtMs := now, updatedAtMs := now,
             deleteAfterRun := deleteAfterRun }]

/-- `Service.removeJobLocked`: drop every job with the id. -/
def removeJobAll (id : GoString) (jobs : List Job) : List Job :=
  jobs.filter (fun j => j.id ≠ id)

/-- `Service.EnableJob`: update the first job with the id (the Go loop
returns inside); disabling zeroes `nextRunAtMs`, enabling recomputes
it. -/
def enableJob (cronNext : CronNextFn) (id : GoString) (enabled : Bool)
    (now : Int) : List Job → List Job
  | [] => []
  | j :: rest =>
    if j.id = id then
      { j with
        enabled := enabled, updatedAtMs := now,
        nextRunAtMs :=
          if enabled then computeNextRun cronNext j.schedule now else 0 } ::
        rest
    else j :: enableJob cronNext id enabled now rest

/-- `Service.recomputeNextRuns`: refresh `nextRunAtMs` of enabled jobs
only. -/
def recomputeNextRuns (cronNext : CronNextFn) (now : Int)
    (jobs : List Job) : List Job :=
  jobs.map (fun j =>
    if j.enabled then
      { j with nextRunAtMs := computeNextRun cronNext j.schedule now }
    else j)

/-- The status and stamp updates `executeJob` performs on the fired
job before the scheduling branch. -/
def firedJob (errOut : Option GoString) (startMs endMs : Int) (j : Job) :
    Job :=
  { j with
    lastStatus := (match errOut with
      | some _ => gs "error"
      | none => gs "ok"),
    lastError := (match errOut with
      | some e => e
      | none => []),
    lastRunAtMs := startMs, updatedAtMs := endMs }

/-- `Service.executeJob` on the job at position `idx` (the due-list
entry; Go mutates it through the shared pointer): record the callback
status (`errOut = none` means success), stamp the run, then either
retire the fired `at` job (delete by id, or disable with
`nextRunAtMs = 0`) or recompute the next run. -/
def executeJob (cronNext : CronNextFn) (idx : Nat) (errOut : Option GoString)
    (startMs endMs : Int) (jobs : List Job) : List Job :=
  match jobs.get? idx with
  | none => jobs
  | some j =>
    if (firedJob errOut startMs endMs j).schedule.kind = gs "at" then
      if (firedJob errOut startMs endMs j).deleteAfterRun then
        removeJobAll j.id jobs
      else
        jobs.set idx
          { firedJob errOut startMs endMs j with
            enabled := false, nextRunAtMs := 0 }
    else
      jobs.set idx
        { firedJob errOut startMs endMs j with
          nextRunAtMs := computeNextRun cronNext
            (firedJob errOut startMs endMs j).schedule endMs }

/-- The store states reachable through the Service's operations from an
empty store; `executeJob` steps carry the due-list guard of `onTimer`
(only enabled jobs are collected and fired). -/
inductive Reach (cronNext : CronNextFn) : List Job → Prop where
  | empty : Reach cronNext []
  | add (id name : GoString) (sched : Schedule) (pl : Payload) (dar : Bool)
      (now : Int) {s : List Job} : Reach cronNext s →
      Reach cronNext (addJob cronNext id name sched pl dar now s)
  | remove (id : GoString) {s : List Job} : Reach cronNext s →
      Reach cronNext (removeJobAll id s)
  | enable (id : GoString) (en : Bool) (now : Int) {s : List Job} :
      Reach cronNext s → Reach cronNext (enableJob cronNext id en now s)
  | recompute (now : Int) {s : List Job} : Reach cronNext s →
      Reach cronNext (recomputeNextRuns cronNext now s)
  | execute (idx : Nat) (errOut : Option GoString) (startMs endMs : Int)
      {s : List Job} : Reach cronNext s →
      (∀ j, s.get? idx = some j → j.enabled = true) →
      Reach cronNext (executeJob cronNext idx errOut startMs endMs s)

end Cron

-- ===================== Theorems =====================

/-- C4 — counterexample to the claim as stated.  For a message without
media whose content is 1 byte long, and a handler that succeeds exactly
on the truncated variant, the code never attempts the truncation
strategy (it is guarded by `len(content) > 1500`) and goes straight to
the apology, while the claimed policy would have stopped at the
successful truncation retry. -/
theorem recoverSend_skips_truncation_cex :
    (Bus.recoverSend
        (fun m => m.content == gs "x\n\n[message truncated]")
        { channel := gs "cli", chatID := gs "c", content := gs "x",
          replyTo := [], media := [], metadata := [] } =
      [Bus.apologyMsg
        { channel := gs "cli", chatID := gs "c", content := gs "x",
          replyTo := [], media := [], metadata := [] }]) ∧
    (Bus.recoverSendClaimed
        (fun m => m.content == gs "x\n\n[message truncated]")
        { channel := gs "cli", chatID := gs "c", content := gs "x",
          replyTo := [], media := [], metadata := [] } =
      [Bus.truncatedMsg
        { channel := gs "cli", chatID := gs "c", content := gs "x",
          replyTo := [], media := [], metadata := [] }]) ∧
    Bus.apologyMsg
        { channel := gs "cli", chatID := gs "c", content := gs "x",
          replyTo := [], media := [], metadata := [] } ≠
      Bus.truncatedMsg
        { channel := gs "cli", chatID := gs "c", content := gs "x",
          replyTo := [], media := [], metadata := [] } := by
  refine ⟨?_, ?_, ?_⟩ <;> decide

/-- C4 — amended.  The recovery attempts are a subsequence of
[no-media retry, truncated retry, apology] in that order (so the
strategies apply in order), every attempt before the last one failed
(so recovery stops at the first success), a failing handler on a
message carrying media always retries without media first — in
particular before any apology — and when both retry strategies fail
in the handler the apology is sent; the truncated retry, however, is
only attempted when the content exceeds 1500 bytes. -/
theorem recoverSend_policy (h : Bus.OutboundMessage → Bool)
    (o : Bus.OutboundMessage) :
    (Bus.recoverSend h o).Sublist
        [Bus.noMediaMsg o, Bus.truncatedMsg o, Bus.apologyMsg o] ∧
    (∀ m ∈ (Bus.recoverSend h o).dropLast, h m = false) ∧
    (0 < o.media.length →
      (Bus.recoverSend h o).head? = some (Bus.noMediaMsg o)) ∧
    (h (Bus.noMediaMsg o) = false → h (Bus.truncatedMsg o) = false →
      Bus.apologyMsg o ∈ Bus.recoverSend h o) := by
  unfold Bus.recoverSend
  split_ifs with h1 h2 h3 h4 h5 h6 <;>
    refine ⟨?_, ?_, ?_, ?_⟩ <;>
    simp_all

/-- C4 — witness: the amended theorem applied to a concrete failing
handler and a concrete message that carries one media attachment. -/
theorem recoverSend_policy_witness :
    (Bus.recoverSend (fun _ => false)
        { channel := gs "cli", chatID := gs "c", content := gs "x",
          replyTo := [], media := [gs "/tmp/a.png"], metadata := [] }).head? =
      some (Bus.noMediaMsg
        { channel := gs "cli", chatID := gs "c", content := gs "x",
          replyTo := [], media := [gs "/tmp/a.png"], metadata := [] }) ∧
    Bus.apologyMsg
        { channel := gs "cli", chatID := gs "c", content := gs "x",
          replyTo := [], media := [gs "/tmp/a.png"], metadata := [] } ∈
      Bus.recoverSend (fun _ => false)
        { channel := gs "cli", chatID := gs "c", content := gs "x",
          replyTo := [], media := [gs "/tmp/a.png"], metadata := [] } :=
  ⟨((recoverSend_policy (fun _ => false) _).2.2.1 (by decide)),
   ((recoverSend_policy (fun _ => false) _).2.2.2 (by decide) (by decide))⟩

namespace Tool

theorem countSub_eq_zero (s t : GoString) :
    countSub s t = 0 ↔ containsSub s t = false := by
  induction s with
  | nil => cases t <;> simp [countSub, countSubGo, containsSub]
  | cons a s ih =>
    cases t with
    | nil => simp [countSub, containsSub]
    | cons b t =>
      by_cases hp : (b :: t).isPrefixOf (a :: s)
      · simp [countSub, countSubGo, containsSub, hp]
      · simp [countSub, countSubGo, containsSub, hp] at ih ⊢
        simp [ih]

/-- C6 — `edit_file` with `old_text` occurring 0 times in the file
reports "not found" and leaves the contents unchanged; with exactly one
occurrence it writes the file with the first occurrence replaced; with
two or more occurrences it refuses with the disambiguation warning and
leaves the contents unchanged. -/
theorem editFile_spec (path content oldText newText : GoString) :
    (Tool.countSub content oldText = 0 →
      Tool.editFileContent path content oldText newText =
        ⟨Tool.notFoundMsg, content, false⟩) ∧
    (Tool.countSub content oldText = 1 →
      Tool.editFileContent path content oldText newText =
        ⟨Tool.editedMsg path,
          Tool.replaceFirst content oldText newText, true⟩) ∧
    (2 ≤ Tool.countSub content oldText →
      Tool.editFileContent path content oldText newText =
        ⟨Tool.warnMsg (Tool.countSub content oldText), content, false⟩) := by
  refine ⟨fun h0 => ?_, fun h1 => ?_, fun h2 => ?_⟩ <;>
    unfold Tool.editFileContent
  · rw [if_pos]
    simp [Tool.countSub_eq_zero] at h0
    simp [h0]
  · have hc : Tool.containsSub content oldText = true := by
      rcases h : Tool.containsSub content oldText
      · exact absurd ((Tool.countSub_eq_zero content oldText).2 h) (by omega)
      · rfl
    rw [if_neg (by simp [hc]), if_neg (by omega)]
  · have hc : Tool.containsSub content oldText = true := by
      rcases h : Tool.containsSub content oldText
      · exact absurd ((Tool.countSub_eq_zero content oldText).2 h) (by omega)
      · rfl
    rw [if_neg (by simp [hc]), if_pos (by omega)]

/-- C6 — witness: the three branches of the theorem at concrete files:
`old_text` absent, unique, and ambiguous. -/
theorem editFile_spec_witness :
    Tool.editFileContent (gs "f.txt") (gs "abc") (gs "zz") (gs "q") =
      ⟨Tool.notFoundMsg, gs "abc", false⟩ ∧
    Tool.editFileContent (gs "f.txt") (gs "abc") (gs "b") (gs "X") =
      ⟨Tool.editedMsg (gs "f.txt"),
        Tool.replaceFirst (gs "abc") (gs "b") (gs "X"), true⟩ ∧
    Tool.editFileContent (gs "f.txt") (gs "abab") (gs "a") (gs "X") =
      ⟨Tool.warnMsg (Tool.countSub (gs "abab") (gs "a")), gs "abab", false⟩ :=
  ⟨(editFile_spec (gs "f.txt") (gs "abc") (gs "zz") (gs "q")).1 (by decide),
   (editFile_spec (gs "f.txt") (gs "abc") (gs "b") (gs "X")).2.1 (by decide),
   (editFile_spec (gs "f.txt") (gs "abab") (gs "a") (gs "X")).2.2 (by decide)⟩


end Tool

/-- C7 — the sandbox check in `resolvePath` is a bare string-prefix
test.  A path that genuinely lies outside the configured base
directory but whose name shares the base as a string prefix (here
`/wsevil/secret.txt` against base `/ws`) passes the check, and the
read tool then accesses it; a path without that shared prefix is
correctly rejected with no access.  This contradicts the stated
out-of-sandbox guarantee (and the out-of-sandbox wording of the error
message in the code itself). -/
theorem resolvePath_sandbox_bug :
    Tool.resolvePath (gs "/") (gs "/root") (gs "/wsevil/secret.txt") (gs "/ws") =
      some (gs "/wsevil/secret.txt") ∧
    Tool.withinDir (gs "/wsevil/secret.txt") (gs "/ws") = false ∧
    Tool.readFileAccesses (gs "/") (gs "/root") (gs "/wsevil/secret.txt") (gs "/ws") =
      [gs "/wsevil/secret.txt"] ∧
    Tool.resolvePath (gs "/") (gs "/root") (gs "/etc/passwd") (gs "/ws") = none ∧
    Tool.readFileAccesses (gs "/") (gs "/root") (gs "/etc/passwd") (gs "/ws") = [] := by
  refine ⟨?_, ?_, ?_, ?_, ?_⟩ <;> decide

/-- C9 — counterexample to the claim as stated.  A saved `CreatedAt`
with a non-zero sub-second part does not survive the RFC3339 round
trip: the reloaded creation time has its nanoseconds dropped. -/
theorem session_createdAt_cex :
    (Session.loadLines (gs "cli:direct")
        (Session.saveLines
          { key := gs "cli:direct",
            messages := [{ role := gs "user", content := gs "hi",
                           timestamp := gs "2026-02-15T08:00:00Z" }],
            createdAt := ⟨100, 500⟩, updatedAt := ⟨100, 500⟩ })
        ⟨200, 0⟩).createdAt ≠
      (⟨100, 500⟩ : Session.GoTime) := by
  decide

/-- C9 — amended.  For every session whose creation time is not the Go
zero time, `Save` followed by `load` of the same key restores the
message list exactly (same roles, contents and timestamps in the same
order) and restores `CreatedAt` up to whole seconds — exactly (as the
claim states) when the saved creation time has no sub-second part. -/
theorem session_roundtrip (s : Session.Sess) (now : Session.GoTime)
    (hz : s.createdAt.sec ≠ Session.goZeroTimeSec) :
    (Session.loadLines s.key (Session.saveLines s) now).messages =
        s.messages ∧
    (Session.loadLines s.key (Session.saveLines s) now).createdAt.sec =
        s.createdAt.sec ∧
    (s.createdAt.nsec = 0 →
      (Session.loadLines s.key (Session.saveLines s) now).createdAt =
        s.createdAt) := by
  have hscan : ∀ (ms : List Session.SMessage) (c : Option Int)
      (acc : List Session.SMessage),
      Session.loadScan (ms.map .msg) c acc = (c, acc.reverse ++ ms) := by
    intro ms
    induction ms with
    | nil => intro c acc; simp [Session.loadScan]
    | cons m ms ih => intro c acc; simp [Session.loadScan, ih]
  refine ⟨?_, ?_, ?_⟩ <;>
    simp [Session.loadLines, Session.saveLines, Session.loadScan, hscan, hz]
  intro h0
  cases hc : s.createdAt
  simp_all

/-- C9 — witness: the amended round trip at a concrete session with a
whole-second creation time. -/
theorem session_roundtrip_witness :
    (Session.loadLines (gs "cli:direct")
        (Session.saveLines
          { key := gs "cli:direct",
            messages := [{ role := gs "user", content := gs "hi",
                           timestamp := gs "2026-02-15T08:00:00Z" }],
            createdAt := ⟨100, 0⟩, updatedAt := ⟨150, 0⟩ })
        ⟨200, 0⟩).messages =
      [{ role := gs "user", content := gs "hi",
         timestamp := gs "2026-02-15T08:00:00Z" }] ∧
    (Session.loadLines (gs "cli:direct")
        (Session.saveLines
          { key := gs "cli:direct",
            messages := [{ role := gs "user", content := gs "hi",
                           timestamp := gs "2026-02-15T08:00:00Z" }],
            createdAt := ⟨100, 0⟩, updatedAt := ⟨150, 0⟩ })
        ⟨200, 0⟩).createdAt = ⟨100, 0⟩ := by
  have h := session_roundtrip
    { key := gs "cli:direct",
      messages := [{ role := gs "user", content := gs "hi",
                     timestamp := gs "2026-02-15T08:00:00Z" }],
      createdAt := ⟨100, 0⟩, updatedAt := ⟨150, 0⟩ }
    ⟨200, 0⟩ (by decide)
  exact ⟨h.1, h.2.2 rfl⟩

/-- C10 — the key-to-path mapping is not injective: the distinct keys
`a:b` and `a_b` resolve to the same `.jsonl` path (for every sessions
directory), and saving a session under one key overwrites the file
just saved under the other. -/
theorem sessionPath_collision (dir : GoString)
    (disk : GoString → Option (List Session.SessionLine))
    (m1 m2 : List Session.SMessage) (t u : Session.GoTime) :
    Session.sessionPath dir (gs "a:b") = Session.sessionPath dir (gs "a_b") ∧
    gs "a:b" ≠ gs "a_b" ∧
    Session.saveToDisk dir
        (Session.saveToDisk dir disk ⟨gs "a:b", m1, t, t⟩)
        ⟨gs "a_b", m2, u, u⟩
        (Session.sessionPath dir (gs "a:b")) =
      some (Session.saveLines ⟨gs "a_b", m2, u, u⟩) := by
  have hk : Session.safeFilename ((gs "a:b").map
        (fun c => if c = ':' then '_' else c)) ++ gs ".jsonl" =
      Session.safeFilename ((gs "a_b").map
        (fun c => if c = ':' then '_' else c)) ++ gs ".jsonl" := by decide
  have hpath : Session.sessionPath dir (gs "a:b") =
      Session.sessionPath dir (gs "a_b") := by
    unfold Session.sessionPath
    rw [hk]
  refine ⟨hpath, by decide, ?_⟩
  simp [Session.saveToDisk, hpath]

namespace Agent

theorem findSplitIdx_bounds (msgs : List ChatMsg) :
    ∀ i j, findSplitIdx msgs i = some j → 2 ≤ j ∧ j ≤ i
  | 0, j => by simp [findSplitIdx]
  | 1, j => by simp [findSplitIdx]
  | i + 2, j => by
    simp only [findSplitIdx]
    split
    · intro h
      injection h with h
      omega
    · intro h
      have hb := findSplitIdx_bounds msgs (i + 1) j h
      omega

end Agent

/-- C2 — `compressMessages` is the identity (at the same call index)
when there are fewer than 6 messages or no user-role split point, a
provider failure returns the input unchanged after one call, and on
success the result keeps the head, appends the tail `M[splitIdx:]`
after three leading messages, and has length `3 + len(M) - splitIdx`. -/
theorem compressMessages_spec (p : Agent.Provider) (k : Nat)
    (msgs : List Agent.ChatMsg) :
    (msgs.length < 6 → Agent.compressMessages p k msgs = (k, msgs)) ∧
    (Agent.findSplitIdx msgs (msgs.length - 4) = none →
      Agent.compressMessages p k msgs = (k, msgs)) ∧
    (∀ si, Agent.findSplitIdx msgs (msgs.length - 4) = some si →
      p k = none → Agent.compressMessages p k msgs = (k + 1, msgs)) ∧
    (∀ si r, Agent.findSplitIdx msgs (msgs.length - 4) = some si →
      p k = some r →
      (Agent.compressMessages p k msgs).2.headI = msgs.headI ∧
      (Agent.compressMessages p k msgs).2.drop 3 = msgs.drop si ∧
      (Agent.compressMessages p k msgs).2.length = 3 + msgs.length - si) := by
  refine ⟨fun hlt => ?_, fun hn => ?_, fun si hs hp => ?_, fun si r hs hp => ?_⟩
  · simp [Agent.compressMessages, hlt]
  · rcases Nat.lt_or_ge msgs.length 6 with hlt | hge
    · simp [Agent.compressMessages, hlt]
    · simp [Agent.compressMessages, Nat.not_lt.mpr hge, hn]
  · have hb := Agent.findSplitIdx_bounds msgs _ _ hs
    have hge : ¬ msgs.length < 6 := by omega
    simp [Agent.compressMessages, hge, hs, hp]
  · have hb := Agent.findSplitIdx_bounds msgs _ _ hs
    have hge : ¬ msgs.length < 6 := by omega
    have hsi : si ≤ msgs.length := by omega
    simp only [Agent.compressMessages, if_neg hge, hs, hp]
    refine ⟨?_, rfl, ?_⟩
    · cases msgs with
      | nil => simp at hge
      | cons a l => simp [List.headI]
    · simp [List.length_drop]
      omega

/-- C2 — witness: a six-message list whose index 2 is a user message,
with a succeeding summariser. -/
theorem compressMessages_spec_witness :
    (Agent.compressMessages (fun _ => some default) 0
        [default, default, { (default : Agent.ChatMsg) with role := gs "user" },
         default, default, default]).2.headI =
      ([default, default, { (default : Agent.ChatMsg) with role := gs "user" },
         default, default, default] : List Agent.ChatMsg).headI ∧
    (Agent.compressMessages (fun _ => some default) 0
        [default, default, { (default : Agent.ChatMsg) with role := gs "user" },
         default, default, default]).2.drop 3 =
      ([default, default, { (default : Agent.ChatMsg) with role := gs "user" },
         default, default, default] : List Agent.ChatMsg).drop 2 ∧
    (Agent.compressMessages (fun _ => some default) 0
        [default, default, { (default : Agent.ChatMsg) with role := gs "user" },
         default, default, default]).2.length = 3 + 6 - 2 :=
  (compressMessages_spec (fun _ => some default) 0
      [default, default, { (default : Agent.ChatMsg) with role := gs "user" },
       default, default, default]).2.2.2 2 default (by decide) rfl

/-- C5 — a summarisation transport error, or a summary that does not
parse as JSON after fence stripping, leaves the whole state (session
transcript, MEMORY.md, HISTORY.md) untouched; on a parsed result the
transcript is emptied when archiving all, and otherwise trimmed to the
last `clampKeep memoryWindow` messages (`memoryWindow/2` clamped to
`[2,10]`). -/
theorem consolidateMemory_spec (w : Nat)
    (jparse : GoString → Option (Option GoString × Option GoString))
    (st : Agent.ConsState) :
    (∀ archiveAll, Agent.consolidateMemory w none jparse archiveAll st = st) ∧
    (∀ archiveAll c, jparse (Agent.stripFences c) = none →
      Agent.consolidateMemory w (some c) jparse archiveAll st = st) ∧
    (∀ c pr, jparse (Agent.stripFences c) = some pr →
      st.messages ≠ [] →
      (Agent.consolidateMemory w (some c) jparse true st).messages = []) ∧
    (∀ c pr, jparse (Agent.stripFences c) = some pr →
      Agent.clampKeep w < st.messages.length →
      (Agent.consolidateMemory w (some c) jparse false st).messages =
        st.messages.drop (st.messages.length - Agent.clampKeep w) ∧
      (Agent.consolidateMemory w (some c) jparse false st).messages.length =
        Agent.clampKeep w) := by
  refine ⟨fun a => ?_, fun a c hp => ?_, fun c pr hp hne => ?_,
    fun c pr hp hgt => ?_⟩
  · unfold Agent.consolidateMemory
    split_ifs <;> simp
  · unfold Agent.consolidateMemory
    split_ifs <;> simp [hp]
  · rcases pr with ⟨he, mu⟩
    have hlen : ¬ st.messages.length = 0 := by simpa using hne
    simp [Agent.consolidateMemory, hp, hlen]
  · rcases pr with ⟨he, mu⟩
    have hlen : ¬ st.messages.length = 0 := by omega
    have hle : ¬ st.messages.length ≤ Agent.clampKeep w := by omega
    have hd : ¬ st.messages.length - Agent.clampKeep w = 0 := by omega
    simp [Agent.consolidateMemory, hp, hlen, hle, hd, List.length_drop,
      List.length_take]
    omega

/-- C5 — witness: a 7-message session with `memoryWindow = 6`; a
non-parsing summary leaves the state untouched, a parsed one trims the
transcript to `clampKeep 6 = 3` messages. -/
theorem consolidateMemory_spec_witness :
    Agent.consolidateMemory 6 (some (gs "x")) (fun _ => none) true
      { messages := List.replicate 7 default, memoryMd := gs "M",
        historyMd := gs "H" } =
      { messages := List.replicate 7 default, memoryMd := gs "M",
        historyMd := gs "H" } ∧
    (Agent.consolidateMemory 6 (some (gs "x"))
        (fun _ => some (some (gs "h"), some (gs "m"))) false
        { messages := List.replicate 7 default, memoryMd := gs "M",
          historyMd := gs "H" }).messages.length = Agent.clampKeep 6 :=
  ⟨(consolidateMemory_spec 6 (fun _ => none)
      { messages := List.replicate 7 default, memoryMd := gs "M",
        historyMd := gs "H" }).2.1 true (gs "x") rfl,
   ((consolidateMemory_spec 6 (fun _ => some (some (gs "h"), some (gs "m")))
      { messages := List.replicate 7 default, memoryMd := gs "M",
        historyMd := gs "H" }).2.2.2
      (gs "x") (some (gs "h"), some (gs "m")) rfl (by decide)).2⟩

namespace Agent

theorem compressMessages_calls_le (p : Provider) (k : Nat)
    (msgs : List ChatMsg) :
    k ≤ (compressMessages p k msgs).1 ∧
      (compressMessages p k msgs).1 ≤ k + 1 := by
  unfold compressMessages
  split
  · simp
  · split
    · simp
    · split <;> simp

theorem compressIfNeeded_calls_le (est : List ChatMsg → Nat) (ctx : Nat)
    (p : Provider) (k : Nat) (msgs : List ChatMsg) :
    k ≤ (compressIfNeeded est ctx p k msgs).1 ∧
      (compressIfNeeded est ctx p k msgs).1 ≤ k + 1 := by
  unfold compressIfNeeded
  split
  · exact compressMessages_calls_le p k msgs
  · simp

theorem chatWithRetry_calls_le (p : Provider) (k : Nat) :
    k + 1 ≤ (chatWithRetry p k).1 ∧ (chatWithRetry p k).1 ≤ k + 3 := by
  unfold chatWithRetry
  rcases h0 : p k with _ | r
  · rcases h1 : p (k + 1) with _ | r
    · rcases h2 : p (k + 2) with _ | r <;> simp
    · simp
  · simp

theorem finalContentOf_ne_nil (e : TurnExit) (c : GoString)
    (h : finalContentOf e = some c) : c ≠ [] := by
  cases e with
  | answered t =>
    by_cases ht : t = [] <;> simp [finalContentOf, ht] at h <;> subst h
    · decide
    · simpa using ht
  | capReached =>
    simp [finalContentOf] at h
    subst h
    decide
  | failed => simp [finalContentOf] at h

theorem reactLoop_acc_bounds (est : List ChatMsg → Nat) (ctx : Nat)
    (p : Provider) (execTool : ToolCallReq → ToolResult) :
    ∀ fuel i acc,
      (reactLoop est ctx p execTool i fuel acc).1.rounds ≤
        acc.rounds + fuel ∧
      (reactLoop est ctx p execTool i fuel acc).1.calls ≤
        acc.calls + 5 * fuel := by
  intro fuel
  induction fuel with
  | zero => intro i acc; simp [reactLoop]
  | succ fuel ih =>
    intro i acc
    have hci := compressIfNeeded_calls_le est ctx p acc.calls acc.msgs
    rcases hc : compressIfNeeded est ctx p acc.calls acc.msgs with ⟨k1, msgs1⟩
    rw [hc] at hci
    simp only at hci
    have hcr := chatWithRetry_calls_le p k1
    rcases hr : chatWithRetry p k1 with ⟨k2, _ | resp⟩
    all_goals rw [hr] at hcr
    all_goals simp only at hcr
    all_goals simp only [reactLoop, hc, hr]
    · simp
      omega
    · by_cases hfr : resp.finishReason = gs "error"
      · rw [if_pos hfr]
        have hcm := compressMessages_calls_le p k2 msgs1
        rcases he : compressMessages p k2 msgs1 with ⟨k3, compressed⟩
        rw [he] at hcm
        simp only at hcm
        by_cases hlt : est compressed < est msgs1
        · rw [if_pos hlt]
          have hrec := ih (i + 1)
            { acc with
              calls := k3, rounds := acc.rounds + 1, msgs := compressed }
          simp only at hrec
          constructor
          · calc (reactLoop est ctx p execTool (i + 1) fuel _).1.rounds ≤ _ :=
              hrec.1
            _ ≤ acc.rounds + (fuel + 1) := by omega
          · calc (reactLoop est ctx p execTool (i + 1) fuel _).1.calls ≤ _ :=
              hrec.2
            _ ≤ acc.calls + 5 * (fuel + 1) := by omega
        · rw [if_neg hlt]
          simp
          omega
      · rw [if_neg hfr]
        by_cases htc : resp.toolCalls.length = 0
        · rw [if_neg (show ¬ resp.toolCalls.length ≠ 0 from fun hn => hn htc)]
          simp
          omega
        · rw [if_pos htc]
          rcases hrt : runToolCalls execTool resp.toolCalls
              (addAssistantMessage msgs1 resp.content
                (resp.toolCalls.map toolCallDictOf) resp.reasoningContent)
              acc.toolsUsed acc.media with ⟨msgs2, used2, media2⟩
          simp only [hrt]
          have hrec := ih (i + 1)
            { calls := k2, rounds := acc.rounds + 1,
              msgs := if 0 < i then msgs2 ++ [nudgeMsg] else msgs2,
              toolsUsed := used2, media := media2 }
          simp only at hrec
          omega

end Agent

/-- C1 — counterexample to the claim as stated.  With
`maxIterations = 1` and a provider that fails twice before answering,
a single turn makes 3 `provider.Chat` calls (the retry wrapper makes
up to 3 attempts per round), exceeding `maxIterations`. -/
theorem reactLoop_calls_exceed_cap :
    (Agent.runReact (fun _ => 0) 100
        (fun n => if n < 2 then none
          else some { content := gs "hi", toolCalls := [],
                      finishReason := gs "stop", reasoningContent := [] })
        (fun _ => default) 1 []).1.calls = 3 ∧
    ¬ ((Agent.runReact (fun _ => 0) 100
        (fun n => if n < 2 then none
          else some { content := gs "hi", toolCalls := [],
                      finishReason := gs "stop", reasoningContent := [] })
        (fun _ => default) 1 []).1.calls ≤ 1) := by
  constructor <;> decide

/-- C1 — amended.  For every turn (any token estimator, context limit,
provider behaviour, tool behaviour and initial message list): the
number of ReAct rounds (`chatWithRetry` invocations) is at most
`maxIterations`; the number of `provider.Chat` calls is at most
`5 * maxIterations` (up to 3 retry attempts plus up to 2 compression
calls per round); if the loop exits by reaching the iteration cap the
final content is the non-empty fixed fallback string; and every final
content the turn can produce is non-empty. -/
theorem reactLoop_bounds (est : List Agent.ChatMsg → Nat) (ctxLimit : Nat)
    (p : Agent.Provider) (execTool : Agent.ToolCallReq → Agent.ToolResult)
    (maxIter : Nat) (initMsgs : List Agent.ChatMsg) :
    (Agent.runReact est ctxLimit p execTool maxIter initMsgs).1.rounds ≤
        maxIter ∧
    (Agent.runReact est ctxLimit p execTool maxIter initMsgs).1.calls ≤
        5 * maxIter ∧
    ((Agent.runReact est ctxLimit p execTool maxIter initMsgs).2 =
        Agent.TurnExit.capReached →
      Agent.finalContentOf
          (Agent.runReact est ctxLimit p execTool maxIter initMsgs).2 =
        some Agent.fallbackContent ∧ Agent.fallbackContent ≠ []) ∧
    (∀ c, Agent.finalContentOf
        (Agent.runReact est ctxLimit p execTool maxIter initMsgs).2 =
          some c → c ≠ []) := by
  have h := Agent.reactLoop_acc_bounds est ctxLimit p execTool maxIter 0
    { calls := 0, rounds := 0, msgs := initMsgs, toolsUsed := [], media := [] }
  refine ⟨by simpa using h.1, by simpa using h.2, fun hcap => ?_,
    fun c hc => Agent.finalContentOf_ne_nil _ c hc⟩
  rw [hcap]
  exact ⟨rfl, by decide⟩

/-- C1 — witness: the amended theorem at a provider that answers
immediately; the final content is the non-empty answer. -/
theorem reactLoop_bounds_witness :
    (Agent.runReact (fun _ => 0) 100
        (fun _ => some { content := gs "ok", toolCalls := [],
                         finishReason := gs "stop", reasoningContent := [] })
        (fun _ => default) 1 []).1.rounds ≤ 1 ∧
    gs "ok" ≠ [] := by
  have h := reactLoop_bounds (fun _ => 0) 100
    (fun _ => some { content := gs "ok", toolCalls := [],
                     finishReason := gs "stop", reasoningContent := [] })
    (fun _ => default) 1 []
  exact ⟨h.1, h.2.2.2 (gs "ok") (by decide)⟩

namespace Cron

theorem daysInMonth_pos (y m : Nat) (h1 : 1 ≤ m) (h2 : m ≤ 12) :
    1 ≤ daysInMonth y m := by
  interval_cases m <;> simp [daysInMonth]
  split <;> omega

theorem daysBeforeMonth_succ (y m : Nat) (h : 1 ≤ m) :
    daysBeforeMonth y (m + 1) = daysBeforeMonth y m + daysInMonth y m := by
  cases m with
  | zero => omega
  | succ k => rfl

theorem daysBeforeMonth_13 (y : Nat) :
    daysBeforeMonth y 13 = daysInYear y := by
  rcases h : isLeap y <;>
    simp [daysBeforeMonth, daysInMonth, daysInYear, h]

theorem daysBeforeMonth_mono (y : Nat) {a b : Nat} (h1 : 1 ≤ a)
    (h : a ≤ b) : daysBeforeMonth y a ≤ daysBeforeMonth y b := by
  induction h with
  | refl => exact le_refl _
  | step h ih =>
    rename_i m
    calc daysBeforeMonth y a ≤ daysBeforeMonth y m := ih
    _ ≤ daysBeforeMonth y m + daysInMonth y m := Nat.le_add_right _ _
    _ = daysBeforeMonth y (m + 1) := (daysBeforeMonth_succ y m (le_trans h1 h)).symm

theorem daysBeforeMonth_sep (y : Nat) {a b : Nat} (h1 : 1 ≤ a)
    (h : a < b) : daysBeforeMonth y a + daysInMonth y a ≤
      daysBeforeMonth y b := by
  calc daysBeforeMonth y a + daysInMonth y a
      = daysBeforeMonth y (a + 1) := (daysBeforeMonth_succ y a h1).symm
  _ ≤ daysBeforeMonth y b := daysBeforeMonth_mono y (by omega) (by omega)

theorem daysBeforeYear_mono {a b : Nat} (h : a ≤ b) :
    daysBeforeYear a ≤ daysBeforeYear b := by
  induction h with
  | refl => exact le_refl _
  | step h ih =>
    rename_i m
    calc daysBeforeYear a ≤ daysBeforeYear m := ih
    _ ≤ daysBeforeYear m + daysInYear m := Nat.le_add_right _ _
    _ = daysBeforeYear (m + 1) := rfl

theorem daysBeforeYear_sep {a b : Nat} (h : a < b) :
    daysBeforeYear a + daysInYear a ≤ daysBeforeYear b := by
  calc daysBeforeYear a + daysInYear a = daysBeforeYear (a + 1) := rfl
  _ ≤ daysBeforeYear b := daysBeforeYear_mono (by omega)

theorem monthUnique (y : Nat) {m m' k k' : Nat} (hm1 : 1 ≤ m)
    (_hm2 : m ≤ 12) (hm1' : 1 ≤ m') (hm2' : m' ≤ 12)
    (hk : k < daysInMonth y m) (hk' : k' < daysInMonth y m')
    (heq : daysBeforeMonth y m + k = daysBeforeMonth y m' + k') :
    m = m' ∧ k = k' := by
  rcases Nat.lt_trichotomy m m' with hlt | he | hgt
  · have := daysBeforeMonth_sep y hm1 hlt
    omega
  · subst he
    omega
  · have := daysBeforeMonth_sep y hm1' hgt
    omega

theorem yearUnique {y y' k k' : Nat} (hk : k < daysInYear y)
    (hk' : k' < daysInYear y')
    (heq : daysBeforeYear y + k = daysBeforeYear y' + k') :
    y = y' ∧ k = k' := by
  rcases Nat.lt_trichotomy y y' with hlt | he | hgt
  · have := daysBeforeYear_sep hlt
    omega
  · subst he
    omega
  · have := daysBeforeYear_sep hgt
    omega

theorem dayOfYear_lt (y m d : Nat) (hm1 : 1 ≤ m) (hm2 : m ≤ 12)
    (hd1 : 1 ≤ d) (hd2 : d ≤ daysInMonth y m) :
    daysBeforeMonth y m + (d - 1) < daysInYear y := by
  have hs : daysBeforeMonth y m + daysInMonth y m ≤ daysBeforeMonth y 13 :=
    daysBeforeMonth_sep y hm1 (by omega)
  have h13 := daysBeforeMonth_13 y
  omega

theorem absDays_inj {u t : Civil} (hu : u.Valid) (ht : t.Valid)
    (h : absDays u = absDays t) : u.y = t.y ∧ u.m = t.m ∧ u.d = t.d := by
  obtain ⟨hum1, hum2, hud1, hud2, _, _⟩ := hu
  obtain ⟨htm1, htm2, htd1, htd2, _, _⟩ := ht
  obtain ⟨hy, hdoy⟩ := yearUnique
    (dayOfYear_lt u.y u.m u.d hum1 hum2 hud1 hud2)
    (dayOfYear_lt t.y t.m t.d htm1 htm2 htd1 htd2)
    (by unfold absDays at h; omega)
  rw [← hy] at hdoy htd2
  obtain ⟨hm, hd⟩ := monthUnique u.y hum1 hum2 htm1 htm2
    (by omega) (by omega) hdoy
  exact ⟨hy, hm, by omega⟩

theorem toMin_linear (t : Civil) :
    toMin t = absDays t * 1440 + t.hh * 60 + t.mi := by
  unfold toMin
  ring

theorem nextMonthStart_valid {t : Civil} (ht : t.Valid) :
    (nextMonthStart t).Valid := by
  obtain ⟨hm1, hm2, _, _, _, _⟩ := ht
  unfold nextMonthStart
  split
  · simp [Civil.Valid, daysInMonth]
  · rename_i h12
    have hd := daysInMonth_pos t.y (t.m + 1) (by omega) (by omega)
    simp [Civil.Valid]
    omega

theorem nextDayStart_valid {t : Civil} (ht : t.Valid) :
    (nextDayStart t).Valid := by
  unfold nextDayStart
  split
  · obtain ⟨hm1, hm2, hd1, hd2, _, _⟩ := ht
    rename_i hlt
    simp [Civil.Valid]
    omega
  · exact nextMonthStart_valid ht

theorem nextHourStart_valid {t : Civil} (ht : t.Valid) :
    (nextHourStart t).Valid := by
  unfold nextHourStart
  split
  · obtain ⟨hm1, hm2, hd1, hd2, hhh, hmm⟩ := ht
    simp [Civil.Valid]
    omega
  · exact nextDayStart_valid ht

theorem addMinute_valid {t : Civil} (ht : t.Valid) :
    (addMinute t).Valid := by
  unfold addMinute
  split
  · obtain ⟨hm1, hm2, hd1, hd2, hhh, hmm⟩ := ht
    simp [Civil.Valid]
    omega
  · exact nextHourStart_valid ht

theorem absDays_nextMonthStart {t : Civil} (ht : t.Valid) :
    absDays (nextMonthStart t) =
      daysBeforeYear t.y + daysBeforeMonth t.y t.m + daysInMonth t.y t.m := by
  obtain ⟨hm1, hm2, _, _, _, _⟩ := ht
  unfold nextMonthStart
  split
  · rename_i h12
    show daysBeforeYear (t.y + 1) + daysBeforeMonth (t.y + 1) 1 + (1 - 1) = _
    have h13 := daysBeforeMonth_13 t.y
    have hsu : daysBeforeMonth t.y 13 =
        daysBeforeMonth t.y 12 + daysInMonth t.y 12 :=
      daysBeforeMonth_succ t.y 12 (by omega)
    have hY : daysBeforeYear (t.y + 1) =
        daysBeforeYear t.y + daysInYear t.y := rfl
    have h1 : daysBeforeMonth (t.y + 1) 1 = 0 := rfl
    rw [h12]
    omega
  · show daysBeforeYear t.y + daysBeforeMonth t.y (t.m + 1) + (1 - 1) = _
    rw [daysBeforeMonth_succ t.y t.m hm1]
    omega

theorem absDays_nextDayStart {t : Civil} (ht : t.Valid) :
    absDays (nextDayStart t) = absDays t + 1 := by
  have hd1 : 1 ≤ t.d := ht.2.2.1
  have hd2 : t.d ≤ daysInMonth t.y t.m := ht.2.2.2.1
  unfold nextDayStart
  split
  · show daysBeforeYear t.y + daysBeforeMonth t.y t.m + (t.d + 1 - 1) = _
    unfold absDays
    omega
  · rename_i hge
    rw [absDays_nextMonthStart ht]
    unfold absDays
    omega

theorem toMin_nextDayStart {t : Civil} (ht : t.Valid) :
    toMin (nextDayStart t) = (absDays t + 1) * 1440 := by
  have h := absDays_nextDayStart ht
  have hz : (nextDayStart t).hh = 0 ∧ (nextDayStart t).mi = 0 := by
    unfold nextDayStart nextMonthStart
    split
    · exact ⟨rfl, rfl⟩
    · split <;> exact ⟨rfl, rfl⟩
  rw [toMin_linear, h, hz.1, hz.2]
  ring

theorem toMin_nextHourStart {t : Civil} (ht : t.Valid) :
    toMin (nextHourStart t) = absDays t * 1440 + (t.hh + 1) * 60 := by
  have hh : t.hh < 24 := ht.2.2.2.2.1
  unfold nextHourStart
  split
  · rename_i hlt
    show (absDays ⟨t.y, t.m, t.d, t.hh + 1, 0⟩ * 24 + (t.hh + 1)) * 60 + 0 = _
    have : absDays ⟨t.y, t.m, t.d, t.hh + 1, 0⟩ = absDays t := rfl
    rw [this]
    ring
  · rename_i hge
    rw [toMin_nextDayStart ht]
    have h23 : t.hh = 23 := by omega
    rw [h23]
    ring

theorem toMin_addMinute {t : Civil} (ht : t.Valid) :
    toMin (addMinute t) = toMin t + 1 := by
  have hmi : t.mi < 60 := ht.2.2.2.2.2
  unfold addMinute
  split
  · rename_i hlt
    show (absDays ⟨t.y, t.m, t.d, t.hh, t.mi + 1⟩ * 24 + t.hh) * 60 +
        (t.mi + 1) = _
    have : absDays ⟨t.y, t.m, t.d, t.hh, t.mi + 1⟩ = absDays t := rfl
    rw [this, toMin]
    omega
  · rename_i hge
    rw [toMin_nextHourStart ht, toMin_linear]
    have h59 : t.mi = 59 := by omega
    rw [h59]
    ring

theorem toMin_nextMonthStart {t : Civil} (ht : t.Valid) :
    toMin (nextMonthStart t) =
      (daysBeforeYear t.y + daysBeforeMonth t.y t.m + daysInMonth t.y t.m) *
        1440 := by
  have h := absDays_nextMonthStart ht
  have hz : (nextMonthStart t).hh = 0 ∧ (nextMonthStart t).mi = 0 := by
    unfold nextMonthStart
    split <;> exact ⟨rfl, rfl⟩
  rw [toMin_linear, h, hz.1, hz.2]
  ring

theorem cronStep_valid (cs : CronSets) {t : Civil} (ht : t.Valid) :
    (cronStep cs t).Valid := by
  unfold cronStep
  split
  · exact nextMonthStart_valid ht
  · split
    · exact nextDayStart_valid ht
    · split
      · exact nextHourStart_valid ht
      · exact addMinute_valid ht

theorem toMin_lt_cronStep (cs : CronSets) {t : Civil} (ht : t.Valid) :
    toMin t < toMin (cronStep cs t) := by
  have hlin := toMin_linear t
  have hd1 : 1 ≤ t.d := ht.2.2.1
  have hd2 : t.d ≤ daysInMonth t.y t.m := ht.2.2.2.1
  have hh : t.hh < 24 := ht.2.2.2.2.1
  have hmi : t.mi < 60 := ht.2.2.2.2.2
  unfold cronStep
  split
  · rw [toMin_nextMonthStart ht]
    unfold absDays at hlin
    omega
  · split
    · rw [toMin_nextDayStart ht]
      omega
    · split
      · rw [toMin_nextHourStart ht]
        omega
      · rw [toMin_addMinute ht]
        omega

theorem month_of_absDays_interval {t u : Civil} (ht : t.Valid) (hu : u.Valid)
    (hlo : daysBeforeYear t.y + daysBeforeMonth t.y t.m ≤ absDays u)
    (hhi : absDays u < daysBeforeYear t.y + daysBeforeMonth t.y t.m +
      daysInMonth t.y t.m) : u.m = t.m := by
  have hdoyu := dayOfYear_lt u.y u.m u.d hu.1 hu.2.1 hu.2.2.1 hu.2.2.2.1
  have h13 := daysBeforeMonth_13 t.y
  have hsep : daysBeforeMonth t.y t.m + daysInMonth t.y t.m ≤
      daysBeforeMonth t.y 13 :=
    daysBeforeMonth_sep t.y ht.1 (by have := ht.2.1; omega)
  have hdecu : absDays u =
      daysBeforeYear u.y + (daysBeforeMonth u.y u.m + (u.d - 1)) := by
    unfold absDays
    omega
  obtain ⟨hy, hk⟩ := yearUnique hdoyu
    (show absDays u - daysBeforeYear t.y < daysInYear t.y by omega)
    (show daysBeforeYear u.y + (daysBeforeMonth u.y u.m + (u.d - 1)) =
      daysBeforeYear t.y + (absDays u - daysBeforeYear t.y) by omega)
  rw [hy] at hk
  obtain ⟨hme, _⟩ := monthUnique t.y hu.1 hu.2.1 ht.1 ht.2.1
    (show u.d - 1 < daysInMonth t.y u.m by
      rw [← hy]
      have h1 := hu.2.2.2.1
      have h2 := hu.2.2.1
      omega)
    (show (absDays u - daysBeforeYear t.y) - daysBeforeMonth t.y t.m <
        daysInMonth t.y t.m by omega)
    (show daysBeforeMonth t.y u.m + (u.d - 1) = daysBeforeMonth t.y t.m +
        ((absDays u - daysBeforeYear t.y) - daysBeforeMonth t.y t.m) by omega)
  exact hme

theorem cronStep_eq_month (cs : CronSets) (t : Civil)
    (h : cs.months.contains t.m = false) :
    cronStep cs t = nextMonthStart t := by
  unfold cronStep
  rw [h]
  simp

theorem cronStep_eq_day (cs : CronSets) (t : Civil)
    (hmo : cs.months.contains t.m = true)
    (hdd : (!cs.doms.contains t.d || !cs.dows.contains (weekday t)) = true) :
    cronStep cs t = nextDayStart t := by
  unfold cronStep
  rw [hmo, hdd]
  simp

theorem cronStep_eq_hour (cs : CronSets) (t : Civil)
    (hmo : cs.months.contains t.m = true)
    (hdd : (!cs.doms.contains t.d || !cs.dows.contains (weekday t)) = false)
    (hho : cs.hours.contains t.hh = false) :
    cronStep cs t = nextHourStart t := by
  unfold cronStep
  rw [hmo, hdd, hho]
  simp

theorem cronStep_eq_minute (cs : CronSets) (t : Civil)
    (hmo : cs.months.contains t.m = true)
    (hdd : (!cs.doms.contains t.d || !cs.dows.contains (weekday t)) = false)
    (hho : cs.hours.contains t.hh = true) :
    cronStep cs t = addMinute t := by
  unfold cronStep
  rw [hmo, hdd, hho]
  simp

theorem cronStep_sound (cs : CronSets) {t u : Civil} (ht : t.Valid)
    (hu : u.Valid) (hm : cronMatches cs t = false)
    (h1 : toMin t ≤ toMin u) (h2 : toMin u < toMin (cronStep cs t)) :
    cronMatches cs u = false := by
  have hlt := toMin_linear t
  have hlu := toMin_linear u
  have hth : t.hh < 24 := ht.2.2.2.2.1
  have htm : t.mi < 60 := ht.2.2.2.2.2
  have huh : u.hh < 24 := hu.2.2.2.2.1
  have hum : u.mi < 60 := hu.2.2.2.2.2
  cases hmo : cs.months.contains t.m with
  | false =>
    rw [cronStep_eq_month cs t hmo, toMin_nextMonthStart ht] at h2
    have habt : absDays t =
        daysBeforeYear t.y + daysBeforeMonth t.y t.m + (t.d - 1) := rfl
    have hme : u.m = t.m := by
      apply month_of_absDays_interval ht hu
      · omega
      · omega
    have hmo2 : t.m ∉ cs.months := by simpa using hmo
    simp [cronMatches, hme, hmo2]
  | true =>
    cases hdd : (!cs.doms.contains t.d || !cs.dows.contains (weekday t)) with
    | true =>
      rw [cronStep_eq_day cs t hmo hdd, toMin_nextDayStart ht] at h2
      have habs : absDays u = absDays t := by omega
      obtain ⟨hy, hmm, hde⟩ := absDays_inj hu ht habs
      have hwd : weekday u = weekday t := by
        unfold weekday
        rw [habs]
      rcases (show t.d ∉ cs.doms ∨ weekday t ∉ cs.dows by
          simpa using hdd) with hc | hc
      · simp [cronMatches, hde, hc]
      · simp [cronMatches, hwd, hc]
    | false =>
      cases hho : cs.hours.contains t.hh with
      | false =>
        rw [cronStep_eq_hour cs t hmo hdd hho, toMin_nextHourStart ht] at h2
        have hhe : u.hh = t.hh := by omega
        have hho2 : t.hh ∉ cs.hours := by simpa using hho
        simp [cronMatches, hhe, hho2]
      | true =>
        rw [cronStep_eq_minute cs t hmo hdd hho, toMin_addMinute ht] at h2
        have hmieq : u.mi = t.mi := by omega
        have hdd2 : t.d ∈ cs.doms ∧ weekday t ∈ cs.dows := by
          simpa using hdd
        have hmo2 : t.m ∈ cs.months := by simpa using hmo
        have hho2 : t.hh ∈ cs.hours := by simpa using hho
        have hmin : t.mi ∉ cs.minutes := by
          simp [cronMatches, hmo2, hdd2.1, hdd2.2, hho2] at hm
          exact hm
        simp [cronMatches, hmieq, hmin]

theorem cronSearch_correct (cs : CronSets) (endMin : Nat) :
    ∀ fuel (t : Civil), t.Valid → endMin ≤ toMin t + fuel →
      (∀ r, cronSearch cs endMin fuel t = some r →
        r.Valid ∧ cronMatches cs r = true ∧ toMin t ≤ toMin r ∧
          toMin r < endMin ∧
          (∀ u, u.Valid → toMin t ≤ toMin u → toMin u < toMin r →
            cronMatches cs u = false)) ∧
      (cronSearch cs endMin fuel t = none →
        ∀ u, u.Valid → toMin t ≤ toMin u → toMin u < endMin →
          cronMatches cs u = false) := by
  intro fuel
  induction fuel with
  | zero =>
    intro t ht hf
    constructor
    · intro r hr
      simp [cronSearch] at hr
    · intro _ u hu hu1 hu2
      omega
  | succ fuel ih =>
    intro t ht hf
    by_cases hin : toMin t < endMin
    · cases hmatch : cronMatches cs t with
      | true =>
        constructor
        · intro r hr
          simp only [cronSearch, if_pos hin, hmatch, if_true] at hr
          injection hr with hr
          subst hr
          exact ⟨ht, hmatch, le_refl _, hin, fun u hu hu1 hu2 => by omega⟩
        · intro hn
          simp only [cronSearch, if_pos hin, hmatch, if_true] at hn
          exact Option.noConfusion hn
      | false =>
        have hstep := toMin_lt_cronStep cs ht
        have htv := cronStep_valid cs ht
        have ihs := ih (cronStep cs t) htv (by omega)
        have hred : cronSearch cs endMin (fuel + 1) t =
            cronSearch cs endMin fuel (cronStep cs t) := by
          simp [cronSearch, hin, hmatch]
        constructor
        · intro r hr
          rw [hred] at hr
          obtain ⟨hrv, hrm, hrle, hrlt, hrmin⟩ := ihs.1 r hr
          refine ⟨hrv, hrm, by omega, hrlt, fun u hu hu1 hu2 => ?_⟩
          by_cases hcase : toMin u < toMin (cronStep cs t)
          · exact cronStep_sound cs ht hu hmatch hu1 hcase
          · exact hrmin u hu (by omega) hu2
        · intro hn u hu hu1 hu2
          rw [hred] at hn
          by_cases hcase : toMin u < toMin (cronStep cs t)
          · exact cronStep_sound cs ht hu hmatch hu1 hcase
          · exact ihs.2 hn u hu (by omega) hu2
    · constructor
      · intro r hr
        simp only [cronSearch, if_neg hin] at hr
        exact Option.noConfusion hr
      · intro _ u hu hu1 hu2
        omega

theorem rangeStep_mem {lo hi step v : Nat} (h : v ∈ rangeStep lo hi step) :
    lo ≤ v ∧ v ≤ hi := by
  unfold rangeStep at h
  split at h
  · rename_i hle
    simp only [List.mem_map, List.mem_range] at h
    obtain ⟨k, hk, rfl⟩ := h
    refine ⟨by omega, ?_⟩
    have h1 : k * step ≤ ((hi - lo) / step) * step :=
      Nat.mul_le_mul_right _ (by omega)
    have h2 : ((hi - lo) / step) * step ≤ hi - lo := Nat.div_mul_le_self _ _
    omega
  · simp at h

theorem parseCronPartGo_sound {lo hi : Nat} {part : GoString}
    {vs : List Nat} (h : parseCronPartGo lo hi part = some vs) :
    ∀ v ∈ vs, lo ≤ v ∧ v ≤ hi := by
  unfold parseCronPartGo at h
  split at h
  · -- */N
    split at h
    · exact Option.noConfusion h
    · rename_i st hst
      split at h
      · exact Option.noConfusion h
      · injection h with h
        subst h
        exact fun v hv => rangeStep_mem hv
  · split at h
    · -- *
      injection h with h
      subst h
      exact fun v hv => rangeStep_mem hv
    · split at h
      · -- range a-b or a-b/N
        split at h
        · rename_i b0 b1
          split at h
          · rename_i l hInt hl hh
            split at h
            · exact Option.noConfusion h
            · rename_i hbounds
              split at h
              · rename_i stepStr
                split at h
                · exact Option.noConfusion h
                · rename_i st hstp
                  split at h
                  · exact Option.noConfusion h
                  · injection h with h
                    subst h
                    intro v hv
                    split at hv
                    · simp at hv
                    · have := rangeStep_mem hv
                      omega
              · injection h with h
                subst h
                intro v hv
                split at hv
                · simp at hv
                · have := rangeStep_mem hv
                  omega
          · exact Option.noConfusion h
        · exact Option.noConfusion h
      · -- single value
        split at h
        · exact Option.noConfusion h
        · rename_i v0 hv0
          split at h
          · exact Option.noConfusion h
          · rename_i hb
            injection h with h
            subst h
            intro v hv
            simp at hv
            subst hv
            omega

theorem parseCronPart_sound {lo hi : Nat} {part : GoString} {vs : List Nat}
    (h : parseCronPart lo hi part = some vs) :
    ∀ v ∈ vs, lo ≤ v ∧ v ≤ hi :=
  parseCronPartGo_sound h

theorem parseFieldAcc_fold_none (lo hi : Nat) (parts : List GoString) :
    List.foldl (parseFieldAcc lo hi) none parts = none := by
  induction parts with
  | nil => rfl
  | cons p rest ih => simpa [parseFieldAcc] using ih

theorem parseFieldAcc_fold_sound (lo hi : Nat) :
    ∀ (parts : List GoString) (acc : List Nat),
      (∀ v ∈ acc, lo ≤ v ∧ v ≤ hi) →
      ∀ vs, List.foldl (parseFieldAcc lo hi) (some acc) parts = some vs →
      ∀ v ∈ vs, lo ≤ v ∧ v ≤ hi := by
  intro parts
  induction parts with
  | nil =>
    intro acc hacc vs h
    simp at h
    subst h
    exact hacc
  | cons p rest ih =>
    intro acc hacc vs h
    simp only [List.foldl_cons] at h
    rcases hp : parseCronPart lo hi p with _ | ps
    · rw [show parseFieldAcc lo hi (some acc) p = none by
        simp [parseFieldAcc, hp]] at h
      rw [parseFieldAcc_fold_none lo hi rest] at h
      exact Option.noConfusion h
    · rw [show parseFieldAcc lo hi (some acc) p = some (acc ++ ps) by
        simp [parseFieldAcc, hp]] at h
      refine ih (acc ++ ps) ?_ vs h
      intro v hv
      rcases List.mem_append.mp hv with h1 | h1
      · exact hacc v h1
      · exact parseCronPart_sound hp v h1

theorem parseCronField_sound {field : GoString} {lo hi : Nat}
    {s : List Nat} (h : parseCronField field lo hi = some s) :
    ∀ v ∈ s, lo ≤ v ∧ v ≤ hi :=
  parseFieldAcc_fold_sound lo hi (field.splitOn ',') []
    (by intro v hv; simp at hv) s h

end Cron

namespace Cron

theorem nextCronFrom_eq {expr f1 f2 f3 f4 f5 : GoString}
    {mins hrs ds mos dws : List Nat} (hne : expr ≠ [])
    (hf : goFields expr = [f1, f2, f3, f4, f5])
    (h1 : parseCronField f1 0 59 = some mins)
    (h2 : parseCronField f2 0 23 = some hrs)
    (h3 : parseCronField f3 1 31 = some ds)
    (h4 : parseCronField f4 1 12 = some mos)
    (h5 : parseCronField f5 0 6 = some dws) (start : Civil) :
    nextCronFrom expr start =
      nextCronCivil ⟨mins, hrs, ds, mos, dws⟩ start := by
  simp [nextCronFrom, hne, hf, h1, h2, h3, h4, h5]

theorem toMin_inj {u t : Civil} (hu : u.Valid) (ht : t.Valid)
    (h : toMin u = toMin t) : u = t := by
  have huh : u.hh < 24 := hu.2.2.2.2.1
  have hum : u.mi < 60 := hu.2.2.2.2.2
  have hth : t.hh < 24 := ht.2.2.2.2.1
  have htm : t.mi < 60 := ht.2.2.2.2.2
  rw [toMin_linear, toMin_linear] at h
  have habs : absDays u = absDays t := by omega
  have hhh : u.hh = t.hh := by omega
  have hmm : u.mi = t.mi := by omega
  obtain ⟨hy, hm, hd⟩ := absDays_inj hu ht habs
  cases u
  cases t
  simp_all

theorem addMinutes_valid {t : Civil} (ht : t.Valid) (k : Nat) :
    (addMinutes t k).Valid := by
  induction k with
  | zero => exact ht
  | succ k ih => exact addMinute_valid ih

theorem toMin_addMinutes {t : Civil} (ht : t.Valid) (k : Nat) :
    toMin (addMinutes t k) = toMin t + k := by
  induction k with
  | zero => rfl
  | succ k ih =>
    show toMin (addMinute (addMinutes t k)) = toMin t + (k + 1)
    rw [toMin_addMinute (addMinutes_valid ht k), ih]
    omega

theorem nextHourAbs_whole {t : Civil} (ht : t.Valid) (k : Int) :
    nextHourAbs (60 * k) t = nextHourStart t := by
  have hmi : t.mi < 60 := ht.2.2.2.2.2
  have hcast : (toMin t : Int) =
      (absDays t : Int) * 1440 + (t.hh : Int) * 60 + (t.mi : Int) := by
    have h := toMin_linear t
    push_cast [h]
    ring
  have hr : ((toMin t : Int) - 60 * k) % 60 = (t.mi : Int) := by omega
  unfold nextHourAbs
  rw [hr]
  apply toMin_inj (addMinutes_valid ht _) (nextHourStart_valid ht)
  rw [toMin_addMinutes ht, toMin_nextHourStart ht]
  have h2 := toMin_linear t
  omega

theorem cronStepAbs_whole (cs : CronSets) {t : Civil} (ht : t.Valid)
    (k : Int) : cronStepAbs (60 * k) cs t = cronStep cs t := by
  unfold cronStepAbs cronStep
  rw [nextHourAbs_whole ht k]

theorem cronSearchAbs_whole (cs : CronSets) (endMin : Nat) (k : Int) :
    ∀ (fuel : Nat) {t : Civil}, t.Valid →
      cronSearchAbs (60 * k) cs endMin fuel t =
        cronSearch cs endMin fuel t := by
  intro fuel
  induction fuel with
  | zero => intro t _; rfl
  | succ fuel ih =>
    intro t ht
    simp only [cronSearchAbs, cronSearch]
    rw [cronStepAbs_whole cs ht k]
    by_cases h1 : toMin t < endMin
    · rw [if_pos h1, if_pos h1]
      by_cases h2 : cronMatches cs t = true
      · rw [if_pos h2, if_pos h2]
      · rw [if_neg h2, if_neg h2]
        exact ih (cronStep_valid cs ht)
    · rw [if_neg h1, if_neg h1]

/-- The wall-clock search is the code at whole-hour UTC offsets. -/
theorem nextCronCivilAbs_whole (k : Int) (cs : CronSets) {start : Civil}
    (hs : start.Valid) :
    nextCronCivilAbs (60 * k) cs start = nextCronCivil cs start :=
  cronSearchAbs_whole cs (toMin start + searchWindowMin) k
    (searchWindowMin + 1) hs

end Cron

/-- The cron machinery at a whole-hour UTC offset (by
`nextCronCivilAbs_whole`, `nextCronFrom` is the instance of the code
at offsets `60 * k`).  (1) Every value a parsed field set holds lies
within the field range, and out-of-range or malformed tokens (`61`
and `7` out of range, `abc`, `-1`, `*/0`) are rejected with `nil`.
(2) For a five-field expression whose fields all parse, the next-run
search from the start reading (`t0` truncated to the minute plus one
minute) returns the smallest wall-clock minute satisfying all five
field sets within the 366-day horizon, and `0` (modelled `none`)
exactly when no minute in the horizon matches.  At fractional-hour
offsets the hour jump diverges and this property FAILS of the code:
see the code-bug theorem below. -/
theorem cron_nextRun_spec :
    (∀ (field : GoString) (lo hi : Nat) (s : List Nat),
      Cron.parseCronField field lo hi = some s →
      ∀ v ∈ s, lo ≤ v ∧ v ≤ hi) ∧
    (Cron.parseCronField (gs "61") 0 59 = none ∧
     Cron.parseCronField (gs "7") 0 6 = none ∧
     Cron.parseCronField (gs "abc") 0 59 = none ∧
     Cron.parseCronField (gs "-1") 0 59 = none ∧
     Cron.parseCronField (gs "*/0") 0 59 = none) ∧
    (∀ (expr : GoString) (start : Cron.Civil)
      (f1 f2 f3 f4 f5 : GoString) (mins hrs ds mos dws : List Nat),
      start.Valid → expr ≠ [] →
      Cron.goFields expr = [f1, f2, f3, f4, f5] →
      Cron.parseCronField f1 0 59 = some mins →
      Cron.parseCronField f2 0 23 = some hrs →
      Cron.parseCronField f3 1 31 = some ds →
      Cron.parseCronField f4 1 12 = some mos →
      Cron.parseCronField f5 0 6 = some dws →
      (∀ r, Cron.nextCronFrom expr start = some r →
        r.Valid ∧
        Cron.cronMatches ⟨mins, hrs, ds, mos, dws⟩ r = true ∧
        Cron.toMin start ≤ Cron.toMin r ∧
        Cron.toMin r < Cron.toMin start + Cron.searchWindowMin ∧
        (∀ u, u.Valid → Cron.toMin start ≤ Cron.toMin u →
          Cron.toMin u < Cron.toMin r →
          Cron.cronMatches ⟨mins, hrs, ds, mos, dws⟩ u = false)) ∧
      (Cron.nextCronFrom expr start = none →
        ∀ u, u.Valid → Cron.toMin start ≤ Cron.toMin u →
          Cron.toMin u < Cron.toMin start + Cron.searchWindowMin →
          Cron.cronMatches ⟨mins, hrs, ds, mos, dws⟩ u = false)) := by
  refine ⟨fun field lo hi s h => Cron.parseCronField_sound h,
    ⟨by decide, by decide, by decide, by decide, by decide⟩, ?_⟩
  intro expr start f1 f2 f3 f4 f5 mins hrs ds mos dws hv hne hf h1 h2 h3 h4 h5
  have heq := Cron.nextCronFrom_eq hne hf h1 h2 h3 h4 h5 start
  have hc := Cron.cronSearch_correct ⟨mins, hrs, ds, mos, dws⟩
    (Cron.toMin start + Cron.searchWindowMin) (Cron.searchWindowMin + 1)
    start hv (by omega)
  rw [heq]
  exact ⟨fun r hr => hc.1 r hr, fun hn => hc.2 hn⟩

/-- Instantiation of the preceding theorem: the every-minute
expression from the reading year 1, January 1, 00:00; the search
returns that reading itself and it satisfies all five parsed sets. -/
theorem cron_nextRun_spec_witness :
    Cron.nextCronFrom (gs "* * * * *") ⟨1, 1, 1, 0, 0⟩ =
      some ⟨1, 1, 1, 0, 0⟩ ∧
    Cron.Civil.Valid ⟨1, 1, 1, 0, 0⟩ ∧
    Cron.cronMatches
      ⟨Cron.rangeStep 0 59 1, Cron.rangeStep 0 23 1, Cron.rangeStep 1 31 1,
        Cron.rangeStep 1 12 1, Cron.rangeStep 0 6 1⟩
      ⟨1, 1, 1, 0, 0⟩ = true := by
  have h := (cron_nextRun_spec.2.2 (gs "* * * * *") ⟨1, 1, 1, 0, 0⟩
    (gs "*") (gs "*") (gs "*") (gs "*") (gs "*")
    (Cron.rangeStep 0 59 1) (Cron.rangeStep 0 23 1) (Cron.rangeStep 1 31 1)
    (Cron.rangeStep 1 12 1) (Cron.rangeStep 0 6 1)
    (by decide) (by decide) (by decide)
    (by decide) (by decide) (by decide) (by decide) (by decide)).1
    ⟨1, 1, 1, 0, 0⟩ (by decide)
  exact ⟨by decide, h.1, h.2.1⟩

set_option maxRecDepth 100000 in
set_option maxHeartbeats 4000000 in
/-- C3 — code bug: the next-run property fails over the timezones the
claim quantifies over.  `time.Time.Truncate` rounds the absolute
time, so at the fixed UTC offset +05:30 of Asia/Kolkata (`off = 330`
minutes, a zone without DST) the hour jump of the search lands on
wall minute 30.  For the five-field expression `"0 11 1 2 *"`
(minute 0, hour 11, February 1) from the start reading 00:01 on
January 1 of year 1, the search skips the wall 11:00 reading and
returns 0 (`none`) although a valid matching minute lies strictly
inside the 366-day window: February 1 at 11:00 is valid, satisfies
the five parsed field sets, and lies in the window — and the same
engine at UTC offset 0 returns exactly that minute. -/
theorem cron_hourJump_offset_bug :
    Cron.nextCronFromAbs 330 (gs "0 11 1 2 *") ⟨1, 1, 1, 0, 1⟩ = none ∧
    Cron.parseCronField (gs "0") 0 59 = some [0] ∧
    Cron.parseCronField (gs "11") 0 23 = some [11] ∧
    Cron.parseCronField (gs "1") 1 31 = some [1] ∧
    Cron.parseCronField (gs "2") 1 12 = some [2] ∧
    Cron.parseCronField (gs "*") 0 6 = some (Cron.rangeStep 0 6 1) ∧
    Cron.Civil.Valid ⟨1, 2, 1, 11, 0⟩ ∧
    Cron.cronMatches ⟨[0], [11], [1], [2],
      Cron.rangeStep 0 6 1⟩ ⟨1, 2, 1, 11, 0⟩ = true ∧
    Cron.toMin ⟨1, 1, 1, 0, 1⟩ < Cron.toMin ⟨1, 2, 1, 11, 0⟩ ∧
    Cron.toMin ⟨1, 2, 1, 11, 0⟩ <
      Cron.toMin ⟨1, 1, 1, 0, 1⟩ + Cron.searchWindowMin ∧
    Cron.nextCronFromAbs 0 (gs "0 11 1 2 *") ⟨1, 1, 1, 0, 1⟩ =
      some ⟨1, 2, 1, 11, 0⟩ := by
  decide

namespace Cron

/-- The disabled-implies-unscheduled store invariant. -/
def DisabledZero (jobs : List Job) : Prop :=
  ∀ j ∈ jobs, j.enabled = false → j.nextRunAtMs = 0

theorem enableJob_preserves (cronNext : CronNextFn) (id : GoString)
    (en : Bool) (now : Int) :
    ∀ s, DisabledZero s → DisabledZero (enableJob cronNext id en now s) := by
  intro s
  induction s with
  | nil => intro h; exact h
  | cons j rest ih =>
    intro h j' hj'
    unfold enableJob at hj'
    split at hj'
    · rcases List.mem_cons.mp hj' with hj2 | hj2
      · subst hj2
        intro hdis
        simp at hdis ⊢
        simp [hdis]
      · exact h j' (by simp [hj2])
    · rcases List.mem_cons.mp hj' with hj2 | hj2
      · exact h j' (by simp [hj2])
      · exact ih (fun a ha => h a (by simp [ha])) j' hj2

theorem executeJob_preserves (cronNext : CronNextFn) (idx : Nat)
    (errOut : Option GoString) (startMs endMs : Int) (s : List Job)
    (hguard : ∀ j, s.get? idx = some j → j.enabled = true)
    (h : DisabledZero s) :
    DisabledZero (executeJob cronNext idx errOut startMs endMs s) := by
  unfold executeJob
  split
  · exact h
  · rename_i j hget
    have hen := hguard j hget
    split
    · split
      · intro j' hj' hdis
        exact h j' (List.mem_filter.mp hj').1 hdis
      · intro j' hj' hdis
        rcases List.mem_or_eq_of_mem_set hj' with hm | he
        · exact h j' hm hdis
        · subst he; rfl
    · intro j' hj' hdis
      rcases List.mem_or_eq_of_mem_set hj' with hm | he
      · exact h j' hm hdis
      · subst he
        simp [firedJob, hen] at hdis

end Cron

/-- **C8.** In every cron-store state reachable through the Service
operations from the empty store (AddJob, RemoveJob, EnableJob,
recomputeNextRuns, and timer execution of a due job, which `onTimer`
only performs on enabled jobs), every job with `enabled = false` has
`nextRunAtMs = 0`; moreover, when such an execution fires an `at`-kind
job, the job is removed from the store if `deleteAfterRun` is set, and
otherwise the stored job keeps its id but becomes disabled with
`nextRunAtMs = 0`. -/
theorem cronStore_invariant (cronNext : Cron.CronNextFn) (s : List Cron.Job)
    (hr : Cron.Reach cronNext s) :
    Cron.DisabledZero s ∧
    ∀ (idx : Nat) (j : Cron.Job) (errOut : Option GoString)
      (startMs endMs : Int),
      s.get? idx = some j → j.schedule.kind = gs "at" →
      if j.deleteAfterRun then
        ∀ j' ∈ Cron.executeJob cronNext idx errOut startMs endMs s,
          j'.id ≠ j.id
      else
        ∃ j', (Cron.executeJob cronNext idx errOut startMs endMs s)[idx]? =
            some j' ∧ j'.id = j.id ∧ j'.enabled = false ∧
            j'.nextRunAtMs = 0 := by
  have h1 : Cron.DisabledZero s := by
    induction hr with
    | empty => intro j hj hdis; cases hj
    | add id name sched pl dar now hs ih =>
      intro j' hj' hdis
      rcases List.mem_append.mp hj' with hm | hm
      · exact ih j' hm hdis
      · simp only [List.mem_singleton] at hm
        rw [hm] at hdis
        simp at hdis
    | remove id hs ih =>
      intro j' hj' hdis
      exact ih j' (List.mem_filter.mp hj').1 hdis
    | enable id en now hs ih =>
      exact Cron.enableJob_preserves cronNext id en now _ ih
    | recompute now hs ih =>
      intro j' hj' hdis
      rcases List.mem_map.mp hj' with ⟨a, ha, hfa⟩
      by_cases hen : a.enabled = true
      · subst hfa
        simp [hen] at hdis
      · subst hfa
        simp only [if_neg hen] at hdis ⊢
        exact ih a ha hdis
    | execute idx errOut startMs endMs hs hgd ih =>
      exact Cron.executeJob_preserves cronNext idx errOut startMs endMs _ hgd ih
  refine ⟨h1, ?_⟩
  intro idx j errOut startMs endMs hget hkind
  have hk2 : (Cron.firedJob errOut startMs endMs j).schedule.kind = gs "at" :=
    hkind
  by_cases hdel : j.deleteAfterRun = true
  · rw [if_pos hdel]
    have hdel2 : (Cron.firedJob errOut startMs endMs j).deleteAfterRun = true :=
      hdel
    intro j' hj'
    have hexec : Cron.executeJob cronNext idx errOut startMs endMs s =
        Cron.removeJobAll j.id s := by
      simp only [Cron.executeJob, hget]
      rw [if_pos hk2, if_pos hdel2]
    rw [hexec] at hj'
    have hmf := List.mem_filter.mp hj'
    simpa using hmf.2
  · rw [if_neg hdel]
    have hdel2 :
        ¬(Cron.firedJob errOut startMs endMs j).deleteAfterRun = true := hdel
    have hlt : idx < s.length := by
      rcases List.get?_eq_some.mp hget with ⟨hlt, _⟩
      exact hlt
    refine ⟨{ Cron.firedJob errOut startMs endMs j with
              enabled := false, nextRunAtMs := 0 }, ?_, rfl, rfl, rfl⟩
    have hexec : Cron.executeJob cronNext idx errOut startMs endMs s =
        s.set idx { Cron.firedJob errOut startMs endMs j with
                    enabled := false, nextRunAtMs := 0 } := by
      simp only [Cron.executeJob, hget]
      rw [if_pos hk2, if_neg hdel2]
    rw [hexec]
    exact List.getElem?_set_self hlt

/-- Witness for C8: the invariant holds of a concrete store reached by
one AddJob from the empty store. -/
theorem cronStore_invariant_witness :
    Cron.DisabledZero (Cron.addJob (fun _ _ _ => 7) (gs "a") (gs "n")
      { kind := gs "at", atMs := 5, everyMs := 0, expr := [], tz := [] }
      { kind := gs "message", message := gs "hi", deliver := true,
        channel := [], toDest := [] } true 0 []) :=
  (cronStore_invariant (fun _ _ _ => 7) _
    (Cron.Reach.add (gs "a") (gs "n")
      { kind := gs "at", atMs := 5, everyMs := 0, expr := [], tz := [] }
      { kind := gs "message", message := gs "hi", deliver := true,
        channel := [], toDest := [] } true 0 Cron.Reach.empty)).1
